import Mathlib

/-!
Verification development for the syzdescriptor analysis pipeline.

The Python source (passes.py, syzlang.py, driver.py) is shallowly embedded:
* FTDB ("CodeDB") entries become Lean structures; the fact store becomes
  lists of entries with `find?`-based id lookup (Python `entry_by_id`).
* Python dicts become association lists; `{**a, **b}` becomes `dictMerge`
  (keys of `b` override those of `a`), `d[k] = v` becomes `dictSet`
  (in-place value update, append for a fresh key), and Python sets become
  lists with `setAdd` (append if not already present).  A Python set's
  iteration order is unspecified, so functions that iterate a set take the
  iteration order as an explicit list argument.
* A Python function that can raise (uncaught `IndexError` / `KeyError` /
  missing-entry lookups) or diverge (unbounded `while` loops over a cyclic
  fact store) is embedded as an `Option`-valued function; `none` models
  "raises or diverges".  Unbounded recursions get an explicit fuel
  parameter; wrappers supply fuel large enough for the bounded analyses.
-/

set_option maxHeartbeats 1000000
set_option maxRecDepth 8000

namespace Syzdescriptor

/-! ## CodeDB (FTDB) object model -/

/-- An FTDB type entry: `{id, str, class, size, refs, refnames, values, union}`.
`class` is a Lean keyword, so the field is called `cls`. -/
structure TypeEntry where
  id : Nat
  str : String
  cls : String
  size : Nat
  refs : List Nat
  refnames : List String
  values : List Int
  union : Bool
deriving DecidableEq

/-- One element of a deref's `offsetrefs` list: `{kind, id}`. -/
structure OffsetRef where
  kind : String
  id : Nat
deriving DecidableEq

/-- An FTDB deref entry: `{kind, offsetrefs, type, member}`. -/
structure DerefEntry where
  kind : String
  offsetrefs : List OffsetRef
  type : List Nat
  member : List Nat
deriving DecidableEq

/-- One element of a `callrefs` entry: `{type, id, pos}`. -/
structure CallRef where
  type : String
  id : Nat
  pos : Nat
deriving DecidableEq

/-- One element of `call_info`: `{args : [deref index]}`. -/
structure CallInfo where
  args : List Nat
deriving DecidableEq

/-- A switch case `(value, _, label, expanded)`; the unused second slot of
the Python tuple is dropped. -/
structure SwitchCase where
  value : Int
  label : String
  expanded : String
deriving DecidableEq

/-- A switch entry `{condition, cases}`. -/
structure SwitchEntry where
  condition : String
  cases : List SwitchCase
deriving DecidableEq

/-- A function local `{name, ...}`. -/
structure LocalEntry where
  name : String
deriving DecidableEq

/-- An FTDB function entry (the fields the pipeline reads). -/
structure FuncEntry where
  id : Nat
  name : String
  locals : List LocalEntry
  switches : List SwitchEntry
  callrefs : List (List CallRef)
  calls : List Nat
  call_info : List CallInfo
  derefs : List DerefEntry
deriving DecidableEq

/-- A dispatch-table instance entry from `ftdb['fops']`. -/
structure FopsVar where
  type : Nat
  members : List (Nat × List Nat)
  kind : String
  var : Nat
deriving DecidableEq

/-- A global entry `{name, ...}`. -/
structure GlobalEntry where
  name : String
deriving DecidableEq

/-- The read-only fact store. -/
structure CodeDB where
  types : List TypeEntry
  funcs : List FuncEntry
  fops : List FopsVar
  globals : List GlobalEntry
deriving DecidableEq

/-- `ftdb['types'].entry_by_id(i)`; `none` models the raised exception. -/
def CodeDB.typeById (db : CodeDB) (i : Nat) : Option TypeEntry :=
  db.types.find? (fun t => t.id == i)

/-- `ftdb['funcs'].entry_by_id(i)`. -/
def CodeDB.funcById (db : CodeDB) (i : Nat) : Option FuncEntry :=
  db.funcs.find? (fun f => f.id == i)

/-- `ftdb['funcs'].entry_by_name(n)` (all matches). -/
def CodeDB.funcsByName (db : CodeDB) (n : String) : List FuncEntry :=
  db.funcs.filter (fun f => f.name == n)

/-- FTDB ids are unique per entity kind; the well-formedness assumption
under which `entry_by_id` is the inverse of `.id`. -/
def NodupIds (db : CodeDB) : Prop :=
  (db.types.map (fun t => t.id)).Nodup

/-! ## Python dict / set helpers -/

/-- `d.get(k)` on an association list. -/
def dictGet [BEq κ] (m : List (κ × α)) (k : κ) : Option α :=
  (m.find? (fun p => p.1 == k)).map (fun p => p.2)

/-- `d[k] = v`: in-place update of the first binding, append when fresh
(Python dicts keep insertion order). -/
def dictSet [BEq κ] (m : List (κ × α)) (k : κ) (v : α) : List (κ × α) :=
  if (dictGet m k).isSome then
    m.map (fun p => if p.1 == k then (p.1, v) else p)
  else m ++ [(k, v)]

/-- `{**a, **b}`: `a`'s keys in order with `b`'s values overriding, then
`b`'s fresh keys in order. -/
def dictMerge [BEq κ] (a b : List (κ × α)) : List (κ × α) :=
  a.map (fun p => match dictGet b p.1 with
                  | some v => (p.1, v)
                  | none => p)
    ++ b.filter (fun p => (dictGet a p.1).isNone)

/-- `s.add(x)` on a Python set modelled as a duplicate-free list. -/
def setAdd [DecidableEq α] (s : List α) (x : α) : List α :=
  if x ∈ s then s else s ++ [x]

/-- First-occurrence deduplication: models wrapping a list in `set(...)`,
read back in one legal iteration order. -/
def dedupFirstAux [DecidableEq α] : List α → List α → List α
  | [], _ => []
  | x :: xs, seen =>
    if x ∈ seen then dedupFirstAux xs seen else x :: dedupFirstAux xs (x :: seen)

def dedupFirst [DecidableEq α] (l : List α) : List α :=
  dedupFirstAux l []

/-- A harvested `(case label, case value, root type id)` command tuple. -/
abbrev Command := String × Int × Nat

/-! ## TypeAnalysisPass: `detypedef`, `dereference`, dependency closure

`TypeAnalysisPass.detypedef` loops `while class == 'typedef'` through
`refs[0]`; a cyclic typedef chain diverges and a missing entry raises, so
the embedding takes fuel and returns `Option`. -/

def detypedefAux (db : CodeDB) : Nat → TypeEntry → Option Nat
  | 0, _ => none
  | fuel + 1, t =>
    if t.cls = "typedef" then
      match t.refs[0]? with
      | none => none
      | some r =>
        match db.typeById r with
        | none => none
        | some t2 => detypedefAux db fuel t2
    else some t.id

/-- `TypeAnalysisPass.detypedef` (also `Generator.__detypedef`). -/
def detypedef (db : CodeDB) (fuel tid : Nat) : Option Nat :=
  match db.typeById tid with
  | none => none
  | some t => detypedefAux db fuel t

def dereferenceAux (db : CodeDB) : Nat → TypeEntry → Option Nat
  | 0, _ => none
  | fuel + 1, t =>
    if t.cls = "pointer" ∨ t.cls = "typedef" then
      match t.refs[0]? with
      | none => none
      | some r =>
        match db.typeById r with
        | none => none
        | some t2 => dereferenceAux db fuel t2
    else some t.id

/-- `TypeAnalysisPass.dereference`: collapse both typedefs and pointers. -/
def dereference (db : CodeDB) (fuel tid : Nat) : Option Nat :=
  match db.typeById tid with
  | none => none
  | some t => dereferenceAux db fuel t

/-- `TypeAnalysisPass.__find_unique_type_dependencies`: DFS collecting
visited ids into `found` (the Python code mutates one shared set; here it
is threaded).  Stops at enums; recurses into `detypedef(ref)` for every
ref of a non-enum node. -/
def findDepsAux (db : CodeDB) : Nat → Nat → List Nat → Option (List Nat)
  | 0, _, _ => none
  | fuel + 1, tid, found =>
    if tid ∈ found then some found
    else
      match db.typeById tid with
      | none => none
      | some t =>
        if t.cls = "enum" then some (found ++ [tid])
        else
          t.refs.foldlM
            (fun acc ref =>
              match detypedef db fuel ref with
              | none => none
              | some d => findDepsAux db fuel d acc)
            (found ++ [tid])

/-- `TypeAnalysisPass.find_unique_type_dependencies`. -/
def find_unique_type_dependencies (db : CodeDB) (fuel tid : Nat) :
    Option (List Nat) :=
  match detypedef db fuel tid with
  | none => none
  | some d => findDepsAux db fuel d []

/-- `TypeAnalysisPass.contains_fields`. -/
def contains_fields (db : CodeDB) (fuel tid : Nat) : Option Bool :=
  match detypedef db fuel tid with
  | none => none
  | some d =>
    match db.typeById d with
    | none => none
    | some t => some (decide (t.refs.length > 0))

/-- The list comprehension in `TypeAnalysisPass.process`:
`[x for _, _, type_id in commands for x in find_unique_type_dependencies(type_id)]`. -/
def typeDepsList (db : CodeDB) (fuel : Nat) : List Command → Option (List Nat)
  | [] => some []
  | c :: rest =>
    match find_unique_type_dependencies db fuel c.2.2 with
    | none => none
    | some s =>
      match typeDepsList db fuel rest with
      | none => none
      | some l => some (s ++ l)

/-- `filter` with an effectful (exception-capable) predicate. -/
def filterOpt (p : α → Option Bool) : List α → Option (List α)
  | [] => some []
  | a :: as =>
    match p a with
    | none => none
    | some b =>
      match filterOpt p as with
      | none => none
      | some rest => some (if b then a :: rest else rest)

/-- `TypeAnalysisPass.process` body:
`fops.deps = set(filter(contains_fields, [ ... ]))`.  The surrounding
`set(...)` is modelled as first-occurrence deduplication. -/
def typeAnalysisDeps (db : CodeDB) (fuel : Nat) (commands : List Command) :
    Option (List Nat) :=
  match typeDepsList db fuel commands with
  | none => none
  | some l =>
    match filterOpt (contains_fields db fuel) l with
    | none => none
    | some f => some (dedupFirst f)

/-! ## PointerCyclesPass -/

/-- `PointerCycle(cycled_id, member_position)`. -/
structure PointerCycle where
  cycled_id : Nat
  member_position : Nat
deriving DecidableEq

abbrev CycleMap := List (Nat × List PointerCycle)

/-- The `cycles.get / append / assign` update in
`PointerCyclesPass.__analyze_pointer_cycles`.  Python truthiness: an empty
value list counts as absent (values are in fact never empty). -/
def dictAppend [BEq κ] (m : List (κ × List α)) (k : κ) (v : α) :
    List (κ × List α) :=
  match dictGet m k with
  | some (_ :: _) => m.map (fun p => if p.1 == k then (p.1, p.2 ++ [v]) else p)
  | _ => dictSet m k [v]

/-- The first `for i in range(len(refs))` loop of
`__analyze_pointer_cycles`: record a `PointerCycle` for every pointer
field whose `dereference` already lies in `traversed`. -/
def cyclesScan (db : CodeDB) (fuel tid : Nat) (traversed : List Nat) :
    List Nat → Nat → CycleMap → Option CycleMap
  | [], _, cycles => some cycles
  | ref :: rest, i, cycles =>
    match db.typeById ref with
    | none => none
    | some rt =>
      if rt.cls ≠ "pointer" then cyclesScan db fuel tid traversed rest (i + 1) cycles
      else
        match dereference db fuel ref with
        | none => none
        | some derefed =>
          if derefed ∈ traversed then
            cyclesScan db fuel tid traversed rest (i + 1)
              (dictAppend cycles tid (PointerCycle.mk derefed i))
          else cyclesScan db fuel tid traversed rest (i + 1) cycles

/-- `PointerCyclesPass.__analyze_pointer_cycles`.  The Python `traversed`
set is mutated in place and shared across the whole DFS, so the embedding
threads it through and returns the updated set alongside the cycle map. -/
def analyzePointerCyclesAux (db : CodeDB) :
    Nat → Nat → List Nat → Option (CycleMap × List Nat)
  | 0, _, _ => none
  | fuel + 1, tid, traversed =>
    if tid ∈ traversed then some ([], traversed)
    else
      match db.typeById tid with
      | none => none
      | some t =>
        if t.cls ≠ "record" then some ([], traversed)
        else
          match cyclesScan db fuel tid traversed t.refs 0 [] with
          | none => none
          | some cycles0 =>
            t.refs.foldlM
              (fun (acc : CycleMap × List Nat) ref =>
                if ref ∈ acc.2 then some acc
                else
                  match dereference db fuel ref with
                  | none => none
                  | some d =>
                    match analyzePointerCyclesAux db fuel d acc.2 with
                    | none => none
                    | some (sub, tr) => some (dictMerge acc.1 sub, tr))
              (cycles0, traversed ++ [tid])

/-- `PointerCyclesPass.analyze_pointer_cycles`. -/
def analyze_pointer_cycles (db : CodeDB) (fuel tid : Nat) : Option CycleMap :=
  match detypedef db fuel tid with
  | none => none
  | some d =>
    match analyzePointerCyclesAux db fuel d [] with
    | none => none
    | some (cycles, _) => some cycles

/-- `PointerCyclesPass.process` body: per-command dict-spread merge
`fops.pointer_cycles = { **fops.pointer_cycles, **analyze_pointer_cycles(type_id) }`,
iterating `fops.commands` in the given order. -/
def pointerCyclesProcess (db : CodeDB) (fuel : Nat) (commands : List Command) :
    Option CycleMap :=
  commands.foldlM
    (fun acc c =>
      match analyze_pointer_cycles db fuel c.2.2 with
      | none => none
      | some m => some (dictMerge acc m))
    []

/-! ## PointerBoundsPass -/

/-- `MemberBounds(type_id, binding_member, bound_member)`. -/
structure MemberBounds where
  type_id : Nat
  binding_member : Nat
  bound_member : Nat
deriving DecidableEq

abbrev BoundsMap := List (Nat × List MemberBounds)

/-- `PointerBoundsPass.BINDING_CALLS`: user-copy functions mapped to their
`(binding = size argument, bound = pointer argument)` position pairs. -/
def BINDING_CALLS : List (String × List (Nat × Nat)) :=
  [("copy_from_user", [(2, 0), (2, 1)]),
   ("copy_to_user", [(2, 0), (2, 1)])]

/-- `PointerBoundsPass.__init__`: `id_to_name`, mapping every function id
named in `BINDING_CALLS` to that name. -/
def idToName (db : CodeDB) : List (Nat × String) :=
  (BINDING_CALLS.map (fun p => p.1)).flatMap
    (fun n => (db.funcsByName n).map (fun f => (f.id, n)))

/-- `PointerBoundsPass.__find_indexes_of_element`. -/
def findIndexesOfElement (lst : List Nat) (e : Nat) : List Nat :=
  (List.range lst.length).filter (fun i => lst[i]? == some e)

/-- The `call_indexes` list comprehension in `analyze_bounds`. -/
def callIndexes (db : CodeDB) (f : FuncEntry) : List Nat :=
  ((idToName db).map (fun p => p.1)).flatMap
    (fun fid => findIndexesOfElement f.calls fid)

/-- The `while binding_deref['kind'] != 'member' or ...` walk in
`analyze_bounds`.  A cyclic deref chain makes the Python loop diverge, so
the embedding takes fuel (`none` = divergence or a raised `IndexError`). -/
def walkToMember (f : FuncEntry) : Nat → DerefEntry → DerefEntry →
    Option (DerefEntry × DerefEntry)
  | 0, _, _ => none
  | fuel + 1, bd, dd =>
    if bd.kind = "member" ∧ dd.kind = "member" then some (bd, dd)
    else
      match (if bd.kind ≠ "member" then
               match bd.offsetrefs.head? with
               | none => none
               | some o => f.derefs[o.id]?
             else some bd) with
      | none => none
      | some bd2 =>
        match (if dd.kind ≠ "member" then
                 match dd.offsetrefs.head? with
                 | none => none
                 | some o => f.derefs[o.id]?
               else some dd) with
        | none => none
        | some dd2 => walkToMember f fuel bd2 dd2

/-- `res.get / add / assign` update for the bounds result dict (values are
Python sets, always created nonempty). -/
def boundsInsert (res : BoundsMap) (tid : Nat) (mb : MemberBounds) : BoundsMap :=
  match dictGet res tid with
  | some (x :: xs) => dictSet res tid (setAdd (x :: xs) mb)
  | _ => dictSet res tid [mb]

/-- The tail of one `for model in models` iteration after the deref walk:
same-parent check, union-parent skip, `MemberBounds` recording. -/
def recordFromWalk (db : CodeDB) (bd dd : DerefEntry) (res : BoundsMap) :
    Option BoundsMap :=
  match bd.type.getLast?, dd.type.getLast? with
  | some bt, some dt =>
    if bt ≠ dt then some res
    else
      match db.typeById dt with
      | none => none
      | some anchor =>
        if anchor.cls = "record" ∧ anchor.union = true then some res
        else
          match bd.member.getLast?, dd.member.getLast? with
          | some bm, some dm => some (boundsInsert res dt (MemberBounds.mk dt bm dm))
          | _, _ => none
  | _, _ => none

/-- One `for model in models` iteration of `analyze_bounds`: fetch the
binding/bound derefs via `call_info`, filter on the first offsetref kinds
(`or` short-circuits like the Python expression), walk to `member` derefs,
then record. -/
def processModel (db : CodeDB) (f : FuncEntry) (ci : Nat) (model : Nat × Nat)
    (res : BoundsMap) : Option BoundsMap :=
  match f.call_info[ci]? with
  | none => none
  | some cinfo =>
    match cinfo.args[model.1]? with
    | none => none
    | some bi =>
      match f.derefs[bi]? with
      | none => none
      | some binding_deref =>
        match cinfo.args[model.2]? with
        | none => none
        | some di =>
          match f.derefs[di]? with
          | none => none
          | some bound_deref =>
            match binding_deref.offsetrefs.head? with
            | none => none
            | some bo =>
              if bo.kind ≠ "member" then some res
              else
                match bound_deref.offsetrefs.head? with
                | none => none
                | some dof =>
                  if dof.kind ≠ "member" then some res
                  else
                    match walkToMember f
                        ((f.derefs.length + 1) * (f.derefs.length + 1) + 1)
                        binding_deref bound_deref with
                    | none => none
                    | some (bd, dd) => recordFromWalk db bd dd res

/-- One `for call_index in call_indexes` iteration. -/
def processCallIndex (db : CodeDB) (f : FuncEntry) (ci : Nat)
    (res : BoundsMap) : Option BoundsMap :=
  match f.calls[ci]? with
  | none => none
  | some callee =>
    match dictGet (idToName db) callee with
    | none => none
    | some name =>
      match dictGet BINDING_CALLS name with
      | none => none
      | some models => models.foldlM (fun acc m => processModel db f ci m acc) res

/-- `PointerBoundsPass.analyze_bounds`.  `max_depth` is the default 4 used
at every call site (the recursive call passes only `depth + 1`, so the
default applies throughout). -/
def analyzeBoundsAux (db : CodeDB) : Nat → Nat → Nat → Option BoundsMap
  | 0, _, _ => none
  | fuel + 1, func_id, depth =>
    match db.funcById func_id with
    | none => some []
    | some f =>
      if depth > 4 ∨ callIndexes db f = [] then some []
      else
        match (callIndexes db f).foldlM (fun acc ci => processCallIndex db f ci acc)
            ([] : BoundsMap) with
        | none => none
        | some res =>
          f.calls.foldlM
            (fun acc call =>
              match analyzeBoundsAux db fuel call (depth + 1) with
              | none => none
              | some sub => some (dictMerge acc sub))
            res

/-- `PointerBoundsPass.analyze_bounds` entry point.  Frames live at depths
`depth, depth+1, ..., 5` (the depth-5 frame returns immediately), so fuel 6
covers every call with `depth ≥ 0`. -/
def analyze_bounds (db : CodeDB) (func_id depth : Nat) : Option BoundsMap :=
  analyzeBoundsAux db 6 func_id depth

/-- `PointerBoundsPass.process`. -/
def pointerBoundsProcess (db : CodeDB) (syscall_id : Nat) : Option BoundsMap :=
  analyze_bounds db syscall_id 1

/-! ## IoctlAnalysisPass

String helpers are implemented over character lists (kernel-reducible
equivalents of the Python `str` operations used by the pass). -/

/-- Literal prefix test at the head of a character list. -/
def matchesAt : List Char → List Char → Bool
  | [], _ => true
  | _ :: _, [] => false
  | p :: ps, c :: cs => p == c && matchesAt ps cs

/-- `str.split(sep)` worker over characters; fuel is at least the input
length plus one, and `sep` is nonempty at every use. -/
def splitOnAuxL (sep : List Char) : Nat → List Char → List Char → List (List Char)
  | 0, _, acc => [acc]
  | _ + 1, [], acc => [acc]
  | fuel + 1, c :: rest, acc =>
    if matchesAt sep (c :: rest) then
      acc :: splitOnAuxL sep fuel ((c :: rest).drop sep.length) []
    else splitOnAuxL sep fuel rest (acc ++ [c])

/-- Python `s.split(sep)` for nonempty `sep`. -/
def pySplit (s sep : String) : List String :=
  (splitOnAuxL sep.toList (s.toList.length + 1) s.toList []).map String.mk

/-- Python `s.startswith(p)`. -/
def pyStartsWith (s p : String) : Bool :=
  matchesAt p.toList s.toList

/-- Python `s.endswith(p)`. -/
def pyEndsWith (s p : String) : Bool :=
  matchesAt p.toList.reverse s.toList.reverse

/-- The character class of `IoctlAnalysisPass.SIZEOF_REGEX`:
`[a-zA-Z0-9\s_\-$\[\]\*]`. -/
def sizeofClassChar (c : Char) : Bool :=
  c.isAlpha || c.isDigit || c == ' ' || c == '\t' || c == '\n' ||
  c == '\r' || c == '\x0b' || c == '\x0c' || c == '_' || c == '-' ||
  c == '$' || c == '[' || c == ']' || c == '*'

/-- `re.search(r'sizeof\(([...]+)\)', s)`: leftmost match; the greedy
one-or-more run over the class must be followed directly by `)` (the class
excludes `)`, so no shorter backtracking run can succeed). -/
def sizeofSearch : List Char → Option (List Char)
  | [] => none
  | c :: rest =>
    if matchesAt "sizeof(".toList (c :: rest) then
      let after := (c :: rest).drop 7
      let run := after.takeWhile sizeofClassChar
      if run ≠ [] ∧ (after.drop run.length).head? = some ')' then some run
      else sizeofSearch rest
    else sizeofSearch rest

/-- The single capture group extracted from a case's expanded text. -/
def sizeofCapture (s : String) : Option String :=
  (sizeofSearch s.toList).map String.mk

/-- `IoctlAnalysisPass.__strip_type`: `(bare name, deduced type kind)`. -/
def strip_type (type_name : String) : String × String :=
  if pyStartsWith type_name "struct " then
    let name := (pySplit type_name "struct ").getLastD type_name
    if pyEndsWith type_name " *" then ((pySplit name " *").headD name, "record")
    else (name, "record")
  else if pyStartsWith type_name "union " then
    let name := (pySplit type_name "union ").getLastD type_name
    if pyEndsWith type_name " *" then ((pySplit name " *").headD name, "record")
    else (name, "record")
  else if pyStartsWith type_name "enum " then
    let name := (pySplit type_name "enum ").getLastD type_name
    if pyEndsWith type_name " *" then ((pySplit name " *").headD name, "enum")
    else (name, "enum")
  else if pyEndsWith type_name " *" then
    ((pySplit type_name " *").headD type_name, "pointer")
  else if pyEndsWith type_name " [" then
    let name := (pySplit type_name " [").headD type_name
    let rest := (pySplit type_name " [").getLastD type_name
    if pyStartsWith rest "]" ∨ pyStartsWith rest "0]" then (name, "incomplete_array")
    else (name, "const_array")
  else (type_name, "builtin")

/-- `IoctlAnalysisPass.FORWARD_DECLARED_TYPES`. -/
def FORWARD_DECLARED_TYPES : List String := ["record_forward", "enum_forward"]

/-- `IoctlAnalysisPass.__get_ftdb_type_id_from_string`: first non-forward
type entry whose name matches the stripped identifier. -/
def get_ftdb_type_id_from_string (db : CodeDB) (type_name : String) : Option Nat :=
  let identifier := (strip_type type_name).1
  let found_types := db.types.filter (fun x => x.str == identifier)
  match (found_types.filter (fun x => !(x.cls ∈ FORWARD_DECLARED_TYPES))).head? with
  | none => none
  | some t => some t.id

/-- `IoctlAnalysisPass.pick_switchcases_by_argument_name`. -/
def pick_switchcases_by_argument_name (db : CodeDB) (fid : Nat)
    (condition : String) : Option (List SwitchEntry) :=
  match db.funcById fid with
  | none => none
  | some f => some (f.switches.filter (fun s => s.condition == condition))

/-- The loop body of `IoctlAnalysisPass.get_forwarded_ioctls` over
`callrefs` with its running index; `calls[i]` out of range models the
uncaught `IndexError`. -/
def forwardedAux (f : FuncEntry) : Nat → List (List CallRef) →
    Option (List (Nat × Nat))
  | _, [] => some []
  | i, callref :: rest =>
    let typeparams := callref.map (fun r => (r.type, r.id))
    let typepos := callref.map (fun r => r.pos)
    if ("parm", 1) ∈ typeparams ∧ ("parm", 2) ∈ typeparams then
      match f.calls[i]?, typepos[typeparams.indexOf ("parm", 1)]? with
      | some callee, some pos =>
        match forwardedAux f (i + 1) rest with
        | none => none
        | some l => some ((callee, pos) :: l)
      | _, _ => none
    else forwardedAux f (i + 1) rest

/-- `IoctlAnalysisPass.get_forwarded_ioctls`. -/
def get_forwarded_ioctls (db : CodeDB) (fid : Nat) :
    Option (List (Nat × Nat)) :=
  match db.funcById fid with
  | none => none
  | some f => forwardedAux f 0 f.callrefs

/-- `IoctlAnalysisPass.recursively_pick_ioctl_with_switchcase`.  The
`try/except` around the entry and local lookups becomes the `some []`
branches; exceptions from `get_forwarded_ioctls` propagate as `none`. -/
def recursivelyPickAux (db : CodeDB) :
    Nat → Nat → Nat → Nat → Nat → Option (List (Nat × Nat))
  | 0, _, _, _, _ => none
  | fuel + 1, fid, argument_id, depth, max_depth =>
    if depth > max_depth then some []
    else
      match db.funcById fid with
      | none => some []
      | some f =>
        match f.locals[argument_id]? with
        | none => some []
        | some l =>
          match pick_switchcases_by_argument_name db fid l.name with
          | none => none
          | some targeted =>
            let functions : List (Nat × Nat) :=
              if targeted.isEmpty then [] else [(fid, argument_id)]
            match get_forwarded_ioctls db fid with
            | none => none
            | some candidates =>
              candidates.foldlM
                (fun acc (p : Nat × Nat) =>
                  match recursivelyPickAux db fuel p.1 p.2 (depth + 1) max_depth with
                  | none => none
                  | some sub => some (acc ++ sub))
                functions

/-- Entry point; at most `max_depth + 2 - depth` frames run, so fuel
`max_depth + 2` always suffices. -/
def recursively_pick_ioctl_with_switchcase (db : CodeDB)
    (fid argument_id depth max_depth : Nat) : Option (List (Nat × Nat)) :=
  recursivelyPickAux db (max_depth + 2) fid argument_id depth max_depth

/-- The `for case in ...` harvest loop of `analyze_switch_cases`: regex
miss and unresolved (or Python-falsy id 0) lookups skip the case. -/
def harvestCases (db : CodeDB) : List SwitchCase → List Command → List Command
  | [], cases => cases
  | c :: rest, cases =>
    match sizeofCapture c.expanded with
    | none => harvestCases db rest cases
    | some type_name =>
      match get_ftdb_type_id_from_string db type_name with
      | none => harvestCases db rest cases
      | some tid =>
        if tid = 0 then harvestCases db rest cases
        else harvestCases db rest (setAdd cases (c.label, c.value, tid))

/-- The `for function_id, argument_id in functions` loop of
`analyze_switch_cases`; an empty switch list triggers the mid-loop
`return cases`. -/
def harvestFunctions (db : CodeDB) :
    List (Nat × Nat) → List Command → Option (List Command)
  | [], cases => some cases
  | (function_id, argument_id) :: rest, cases =>
    match db.funcById function_id with
    | none => none
    | some f =>
      match f.locals[argument_id]? with
      | none => none
      | some l =>
        match pick_switchcases_by_argument_name db f.id l.name with
        | none => none
        | some switches =>
          if switches.isEmpty then some cases
          else
            harvestFunctions db rest
              (harvestCases db (switches.flatMap (fun s => s.cases)) cases)

/-- `IoctlAnalysisPass.analyze_switch_cases`. -/
def analyze_switch_cases (db : CodeDB) (fid : Nat) : Option (List Command) :=
  match recursively_pick_ioctl_with_switchcase db fid 1 1 3 with
  | none => none
  | some functions =>
    if functions.isEmpty then some []
    else harvestFunctions db functions []

/-- `IoctlAnalysisPass.analyze_ifs` (a stub in the source). -/
def analyze_ifs (_db : CodeDB) (_fid : Nat) : List Command := []

/-- Python `set.union`. -/
def setUnion [DecidableEq α] (a b : List α) : List α :=
  b.foldl setAdd a

/-- `IoctlAnalysisPass.analyze_ioctl_commands`. -/
def analyze_ioctl_commands (db : CodeDB) (fid : Nat) : Option (List Command) :=
  match analyze_switch_cases db fid with
  | none => none
  | some cs => some (setUnion cs (analyze_ifs db fid))

/-- `IoctlAnalysisPass.process`: the stored command set together with the
returned status `len(fops.commands) > 0`. -/
def ioctlProcessResult (db : CodeDB) (syscall_id : Nat) :
    Option (List Command × Bool) :=
  match analyze_ioctl_commands db syscall_id with
  | none => none
  | some cs => some (cs, decide (cs.length > 0))

/-! ## FopsCollector -/

/-- `FopsCollector.FILE_OPERATIONS`. -/
def FILE_OPERATIONS : List String := ["file_operations", "proc_ops", "uart_ops"]

/-- `FopsCollector.get_fops_types`: all non-forward dispatch-kind type
entries; `none` models the raised `AttributeError` when there are none. -/
def get_fops_types (db : CodeDB) : Option (List TypeEntry) :=
  let fops_types := db.types.filter
    (fun x => decide (x.str ∈ FILE_OPERATIONS) && x.cls != "record_forward")
  if fops_types.length = 0 then none else some fops_types

/-- The state built by `FopsCollector.__init__`. -/
structure FopsCollectorState where
  types : List (String × List TypeEntry)
  fields : List (Nat × List String)
  vars : List FopsVar
deriving DecidableEq

/-- The name-index construction loop of `FopsCollector.__init__`. -/
def buildTypesIndex : List TypeEntry → List (String × List TypeEntry) →
    List (String × List TypeEntry)
  | [], acc => acc
  | t :: rest, acc =>
    match dictGet acc t.str with
    | some v => buildTypesIndex rest (dictSet acc t.str (v ++ [t]))
    | none => buildTypesIndex rest (dictSet acc t.str [t])

/-- The `fields` construction loop of `FopsCollector.__init__`. -/
def buildFieldsIndex : List (String × List TypeEntry) → List (Nat × List String) →
    List (Nat × List String)
  | [], acc => acc
  | (_, ts) :: rest, acc =>
    buildFieldsIndex rest (ts.foldl (fun a t => dictSet a t.id t.refnames) acc)

/-- `FopsCollector.get_fops_vars`. -/
def get_fops_vars (db : CodeDB) (types : List (String × List TypeEntry)) :
    List FopsVar :=
  let fops_ids := types.flatMap (fun p => p.2.map (fun t => t.id))
  db.fops.filter (fun x => decide (x.type ∈ fops_ids))

/-- `FopsCollector.__init__`: fails exactly when `get_fops_types` raises;
the remaining index/var construction is total. -/
def fopsCollectorInit (db : CodeDB) : Option FopsCollectorState :=
  match get_fops_types db with
  | none => none
  | some fops_types =>
    let types := buildTypesIndex fops_types []
    let fields := buildFieldsIndex types []
    some (FopsCollectorState.mk types fields (get_fops_vars db types))

/-! ## Generator (syzlang.py) -/

/-- A Python value stored in `generated_consts` (command values are ints,
path constants are registered with the empty string). -/
inductive PyVal where
  | intV (n : Int)
  | strV (s : String)
deriving DecidableEq

/-- The batch-global mutable state of `Generator`. -/
structure GenState where
  generated_consts : List (String × PyVal)
  generated_types : List (Nat × List String)
deriving DecidableEq

/-- The declaration class hierarchy of syzlang.py.  `lengthD` stores its
inner type pre-rendered, exactly as `generate_record_definition` passes
`type_decl.__str__()` to `LengthDeclaration`. -/
inductive Declaration where
  | base
  | recordD (name : String)
  | enumD (layout : String) (inside : Declaration)
  | integer (size : Nat)
  | voidD
  | arrayD (inside : Declaration) (size : Nat)
  | pointerD (optional : Bool) (inside : Declaration)
  | lengthD (field_name : String) (inside : String)
deriving DecidableEq

/-- `ArrayDeclaration.__init__` coerces a zero size to 1. -/
def mkArrayDecl (inside : Declaration) (size : Nat) : Declaration :=
  Declaration.arrayD inside (if size > 0 then size else 1)

/-- The `__str__` methods of the declaration classes. -/
def Declaration.render : Declaration → String
  | .base => ""
  | .recordD name => name
  | .enumD layout inside => "flags[" ++ layout ++ ", " ++ inside.render ++ "]"
  | .integer size => "int" ++ toString size
  | .voidD => "void"
  | .arrayD inside size => "array[" ++ inside.render ++ ", " ++ toString size ++ "]"
  | .pointerD optional inside =>
    if inside = .voidD then "buffer[inout]"
    else if optional then "ptr[inout, " ++ inside.render ++ ", opt]"
    else "ptr[inout, " ++ inside.render ++ "]"
  | .lengthD field_name inside => "len[" ++ field_name ++ ", " ++ inside ++ "]"

/-- `RecordField`. -/
structure RecordFieldD where
  name : String
  type_decl : Declaration
deriving DecidableEq

/-- `RecordDefinition`. -/
structure RecordDefD where
  name : String
  fields : List RecordFieldD
  union : Bool
deriving DecidableEq

/-- `RecordDefinition.__str__` (unions use square brackets). -/
def RecordDefD.render (r : RecordDefD) : String :=
  r.name ++ " " ++ (if r.union then "[" else "\x7b") ++ "\n" ++
  String.join (r.fields.map (fun f => "\t" ++ f.name ++ " " ++ f.type_decl.render ++ "\n")) ++
  (if r.union then "]" else "\x7d") ++ "\n\n"

/-- `EnumDefinition.__str__`. -/
def enumDefRender (name : String) (values : List Int) : String :=
  name ++ " = " ++ String.intercalate ", " (values.map toString) ++ "\n\n"

/-- `ConstantDefinition.__str__`. -/
def constantDefRender (name : String) (value : Int) : String :=
  name ++ "_syzdescriptor = " ++ toString value ++ "\n"

/-- `IoctlDeclaration.__str__`. -/
def ioctlDeclRender (fd_name label : String) (argument : Declaration) : String :=
  "ioctl$" ++ label ++ "_syzdescriptor(fd " ++ fd_name ++ ", cmd const[" ++
  label ++ "_syzdescriptor], arg " ++ argument.render ++ ")\n\n"

/-- `OpenDeclaration.__str__`. -/
def openDeclRender (label open_path fd_name : String) : String :=
  "openat$" ++ label ++ "_syzdescriptor(fd const[AT_FDCWD], file ptr[in, string[" ++
  open_path ++ "_syzdescriptor]], flags flags[open_flags], mode const[0]) " ++
  fd_name ++ "\n\n"

/-- `Generator.__find_new_const_name`: append `_` until the name is not a
key of `generated_consts`; at most `|keys|` of the candidates can collide,
so fuel `|keys| + 1` always reaches the loop's exit. -/
def findNewConstNameAux (keys : List String) : Nat → String → String
  | 0, name => name
  | fuel + 1, name =>
    if name ∈ keys then findNewConstNameAux keys fuel (name ++ "_") else name

def find_new_const_name (st : GenState) (name : String) : String :=
  findNewConstNameAux (st.generated_consts.map (fun p => p.1))
    (st.generated_consts.length + 1) name

/-- The `for el in to_remove` rename loop of
`Generator.__rename_already_used_consts` (note: `generated_consts` is not
updated between iterations, and the commands set is mutated by
remove/add). -/
def renameLoop (st : GenState) : List Command → List Command → List Command
  | [], commands => commands
  | el :: rest, commands =>
    renameLoop st rest
      ((commands.erase el) ++ [(find_new_const_name st el.1, el.2.1, el.2.2)])

/-- `Generator.__rename_already_used_consts`. -/
def rename_already_used_consts (st : GenState) (commands : List Command) :
    List Command :=
  renameLoop st
    (commands.filter (fun c => (dictGet st.generated_consts c.1).isSome))
    commands

/-- The emission loop of `Generator.generate_const_file`. -/
def emitConsts : GenState → List Command → String × GenState
  | st, [] => ("", st)
  | st, (label, value, _) :: rest =>
    let line := constantDefRender label value
    let st2 : GenState :=
      GenState.mk (dictSet st.generated_consts label (PyVal.intV value))
        st.generated_types
    match emitConsts st2 rest with
    | (s, st3) => (line ++ s, st3)

/-- `Generator.generate_const_file`: returns the file text, the (possibly
renamed, i.e. mutated) command set and the updated generator state. -/
def generate_const_file (st : GenState) (commands : List Command) :
    String × List Command × GenState :=
  let commands2 := rename_already_used_consts st commands
  match emitConsts st commands2 with
  | (s, st2) => (s, commands2, st2)

/-- `Generator.__assign_name_to_type`.  Outer `none` models a raised
exception (missing entry inside `__detypedef`); the inner option is the
Python `Optional` result. -/
def assign_name_to_type (db : CodeDB) (st : GenState) (fuel typeid : Nat) :
    Option (Option (Nat × String) × GenState) :=
  match dictGet st.generated_types typeid with
  | some (x :: xs) =>
    let new_name := (xs.getLastD x) ++ "_"
    some (some (typeid, new_name),
      GenState.mk st.generated_consts
        (dictSet st.generated_types typeid ((x :: xs) ++ [new_name])))
  | _ =>
    match detypedef db fuel typeid with
    | none => none
    | some d =>
      match db.typeById d with
      | none => none
      | some t =>
        if t.cls ≠ "record" ∧ t.cls ≠ "enum" then some (none, st)
        else
          let name := if t.str = "" then "ANONTYPE_" ++ toString typeid else t.str
          some (some (typeid, name),
            GenState.mk st.generated_consts
              (dictSet st.generated_types typeid [name]))

/-- `Generator.__generate_type_declaration`.  Recursion through pointer
and array refs can cycle, hence the fuel. -/
def generate_type_declaration (db : CodeDB) (st : GenState) :
    Nat → Nat → Option Declaration
  | 0, _ => none
  | fuel + 1, type_id =>
    match detypedef db (fuel + 1) type_id with
    | none => none
    | some d =>
      match db.typeById d with
      | none => none
      | some t =>
        if t.cls = "record" then
          match dictGet st.generated_types t.id with
          | some (x :: xs) => some (Declaration.recordD (xs.getLastD x))
          | _ => some Declaration.base
        else if t.cls = "const_array" ∨ t.cls = "incomplete_array" then
          let size := if t.size = 0 then 1 else t.size
          match t.refs[0]? with
          | none => none
          | some r0 =>
            match db.typeById r0 with
            | none => none
            | some underlying =>
              if underlying.size = 0 then none  -- ZeroDivisionError
              else
                match generate_type_declaration db st fuel r0 with
                | none => none
                | some inner => some (mkArrayDecl inner (size / underlying.size))
        else if t.cls = "enum" then
          match dictGet st.generated_types t.id with
          | some (x :: xs) =>
            some (Declaration.enumD (xs.getLastD x) (Declaration.integer 32))
          | _ => some Declaration.base
        else if t.cls = "pointer" then
          match t.refs[0]? with
          | none => none
          | some r0 =>
            match detypedef db (fuel + 1) r0 with
            | none => none
            | some dr =>
              match generate_type_declaration db st fuel dr with
              | none => none
              | some inner => some (Declaration.pointerD false inner)
        else if t.cls = "builtin" ∧ t.str = "void" then some Declaration.voidD
        else if t.cls = "builtin" ∧ t.size > 64 then
          if t.size % 8 ≠ 0 then none  -- assertion failure
          else some (mkArrayDecl (Declaration.integer 8) (t.size / 8))
        else if t.cls = "builtin" then some (Declaration.integer t.size)
        else some Declaration.base

/-- The field-building comprehension of `generate_record_definition`,
with the per-record anonymous-name counter. -/
def buildFields (db : CodeDB) (st : GenState) (fuel : Nat) :
    List (String × Nat) → Nat → Option (List RecordFieldD)
  | [], _ => some []
  | (nm, tid) :: rest, anon =>
    let renamed :=
      if nm = "__!anonrecord__" ∨ nm = "__!recorddecl__" then
        ("anonymous" ++ toString anon, anon + 1)
      else (nm, anon)
    match generate_type_declaration db st fuel tid with
    | none => none
    | some d =>
      match buildFields db st fuel rest renamed.2 with
      | none => none
      | some fs => some (RecordFieldD.mk renamed.1 d :: fs)

/-- The bounds rewrite loop: replace the binding field's declaration by
`len[<bound field name>, <old rendered type>]`. -/
def applyBounds (fields : List RecordFieldD) : List MemberBounds →
    Option (List RecordFieldD)
  | [] => some fields
  | b :: rest =>
    match fields[b.binding_member]?, fields[b.bound_member]? with
    | some bf, some tf =>
      applyBounds
        (fields.set b.binding_member
          (RecordFieldD.mk bf.name (Declaration.lengthD tf.name bf.type_decl.render)))
        rest
    | _, _ => none

/-- `fields[pos].type_decl.optional = True`: observable only on a
`PointerDeclaration` (on any other class Python just adds an unused
attribute). -/
def setOptional : Declaration → Declaration
  | .pointerD _ inside => .pointerD true inside
  | d => d

/-- The cycles rewrite loop of `generate_record_definition`. -/
def applyCycles (fields : List RecordFieldD) : List PointerCycle →
    Option (List RecordFieldD)
  | [] => some fields
  | c :: rest =>
    match fields[c.member_position]? with
    | none => none
    | some f =>
      applyCycles
        (fields.set c.member_position (RecordFieldD.mk f.name (setOptional f.type_decl)))
        rest

/-- `Generator.generate_record_definition`; `bounds` and `cycles` are the
`self.bounds` / `self.cycles` state set by `generate_description`.
Python truthiness on `.get(...)`: an empty list counts as absent. -/
def generate_record_definition (db : CodeDB) (st : GenState) (fuel : Nat)
    (bounds : BoundsMap) (cycles : CycleMap) (type_id : Nat) (name : String)
    (union : Bool) : Option RecordDefD :=
  match detypedef db fuel type_id with
  | none => none
  | some d =>
    match db.typeById d with
    | none => none
    | some t =>
      match buildFields db st fuel (t.refnames.zip t.refs) 0 with
      | none => none
      | some fields =>
        match (match dictGet bounds type_id with
               | some (b :: bs) => applyBounds fields (b :: bs)
               | _ => some fields) with
        | none => none
        | some fields2 =>
          match (match dictGet cycles type_id with
                 | some (c :: cs) => applyCycles fields2 (c :: cs)
                 | _ => some fields2) with
          | none => none
          | some fields3 => some (RecordDefD.mk name fields3 union)

/-- `Generator.generate_enum_definition`. -/
def generate_enum_definition (db : CodeDB) (fuel type_id : Nat) (name : String) :
    Option String :=
  match detypedef db fuel type_id with
  | none => none
  | some d =>
    match db.typeById d with
    | none => none
    | some t => some (enumDefRender name t.values)

/-- `Generator.__generate_type_definition`. -/
def generate_type_definition (db : CodeDB) (st : GenState) (fuel : Nat)
    (bounds : BoundsMap) (cycles : CycleMap) (type_id : Nat) (name : String) :
    Option String :=
  match detypedef db fuel type_id with
  | none => none
  | some d =>
    match db.typeById d with
    | none => none
    | some t =>
      if t.cls = "record" ∧ t.union = false then
        match generate_record_definition db st fuel bounds cycles type_id name false with
        | none => none
        | some r => some r.render
      else if t.cls = "record" ∧ t.union = true then
        match generate_record_definition db st fuel bounds cycles type_id name true with
        | none => none
        | some r => some r.render
      else if t.cls = "enum" then generate_enum_definition db fuel type_id name
      else some ""

/-- `Generator.__generate_ioctl_declaration`. -/
def generate_ioctl_declaration (db : CodeDB) (st : GenState) (fuel : Nat)
    (fd_name label : String) (type_id : Nat) : Option String :=
  match detypedef db fuel type_id with
  | none => none
  | some d =>
    match db.typeById d with
    | none => none
    | some t =>
      match generate_type_declaration db st fuel type_id with
      | none => none
      | some argument_type =>
        if argument_type = Declaration.base then some ""
        else if t.cls = "pointer" then some (ioctlDeclRender fd_name label argument_type)
        else some (ioctlDeclRender fd_name label (Declaration.pointerD false argument_type))

/-- `Generator.__generate_header` (the date is a parameter). -/
def generate_header (today fd_name path_constant : String) (anchor_id : Nat) :
    String :=
  "# Generated by syzdescriptor on " ++ today ++ "\n" ++
  "# Path constant is: " ++ path_constant ++ "\n" ++
  "# Anchor function ID is: " ++ toString anchor_id ++ "\n" ++
  "include <linux/ioctl.h>\n" ++
  "include <linux/types.h>\n" ++
  "\n" ++
  "resource " ++ fd_name ++ "[fd]\n\n"

/-- The `deps = set(filter(lambda x: x is not None, [assign(x) for x in fop.deps]))`
comprehension of `generate_description`: the input list is one legal
iteration order of the Python set `fop.deps`, and the resulting tuple set
is read back in insertion order. -/
def assignDeps (db : CodeDB) (fuel : Nat) :
    GenState → List Nat → Option (List (Nat × String) × GenState)
  | st, [] => some ([], st)
  | st, tid :: rest =>
    match assign_name_to_type db st fuel tid with
    | none => none
    | some (r, st2) =>
      match assignDeps db fuel st2 rest with
      | none => none
      | some (l, st3) =>
        some ((match r with | some p => [p] | none => []) ++ l, st3)

/-- The per-command ioctl-declaration loop of `generate_description`. -/
def ioctlDecls (db : CodeDB) (st : GenState) (fuel : Nat) (fd_name : String) :
    List Command → Option String
  | [] => some ""
  | (label, _, tid) :: rest =>
    match generate_ioctl_declaration db st fuel fd_name label tid with
    | none => none
    | some s =>
      match ioctlDecls db st fuel fd_name rest with
      | none => none
      | some s2 => some (s ++ s2)

/-- The type-definition emission loop of `generate_description`: one
rendered definition per assigned dependency, in iteration order. -/
def typeDefsList (db : CodeDB) (st : GenState) (fuel : Nat) (bounds : BoundsMap)
    (cycles : CycleMap) : List (Nat × String) → Option (List String)
  | [] => some []
  | (id, name) :: rest =>
    match generate_type_definition db st fuel bounds cycles id name with
    | none => none
    | some s =>
      match typeDefsList db st fuel bounds cycles rest with
      | none => none
      | some l => some (s :: l)

/-- The per-handler record after all passes (`Fops`); `commands` and
`deps` carry the iteration order of the corresponding Python sets. -/
structure FopsR where
  name : String
  syscall_id : Nat
  commands : List Command
  deps : List Nat
  pointer_cycles : CycleMap
  pointer_bounds : BoundsMap
deriving DecidableEq

/-- The ids of the dependencies in emission order (the order in which
`generate_description` writes type definitions). -/
def emittedDepIds (db : CodeDB) (fuel : Nat) (st : GenState) (deps : List Nat) :
    Option (List Nat) :=
  match assignDeps db fuel st deps with
  | none => none
  | some (pairs, _) => some (pairs.map (fun p => p.1))

/-- `Generator.generate_description`. -/
def generate_description (db : CodeDB) (fuel : Nat) (today : String)
    (st : GenState) (fop : FopsR) : Option (String × GenState) :=
  match assignDeps db fuel st fop.deps with
  | none => none
  | some (deps, st2) =>
    let fd_name := "fd_" ++ fop.name
    let path := find_new_const_name st2 ("SYZDESCRIPTOR_PATH_" ++ toString fop.syscall_id)
    let st3 : GenState :=
      GenState.mk (dictSet st2.generated_consts path (PyVal.strV "")) st2.generated_types
    match ioctlDecls db st3 fuel fd_name fop.commands with
    | none => none
    | some ioctls =>
      match typeDefsList db st3 fuel fop.pointer_bounds fop.pointer_cycles deps with
      | none => none
      | some defs =>
        some (generate_header today fd_name path fop.syscall_id ++
                openDeclRender fop.name path fd_name ++
                ioctls ++ "\n" ++ String.join defs,
              st3)

/-! ## GenerationDriver.__generate_description (driver.py) -/

/-- The fate of one handler in the pipeline driver: an uncaught pass
exception is fatal to the batch (`sys.exit(1)`), a failed pass with
`skip_on_fail` discards the handler, otherwise both output files are
produced. -/
inductive DriverOutcome where
  | fatal
  | discarded (passName : String)
  | emitted (constFile descFile : String) (st : GenState)
deriving DecidableEq

/-- `GenerationDriver.__generate_description` for one collected handler:
IoctlAnalysisPass and TypeAnalysisPass discard on failure,
PointerCyclesPass and PointerBoundsPass always report success, then
`dump_file` renders both files. -/
def driver_generate_description (db : CodeDB) (fuel : Nat) (today : String)
    (st : GenState) (name : String) (syscall_id : Nat) : DriverOutcome :=
  match ioctlProcessResult db syscall_id with
  | none => DriverOutcome.fatal
  | some (commands, success) =>
    if success = false then DriverOutcome.discarded "IoctlAnalysisPass"
    else
      match typeAnalysisDeps db fuel commands with
      | none => DriverOutcome.fatal
      | some deps =>
        if deps.length = 0 then DriverOutcome.discarded "TypeAnalysisPass"
        else
          match pointerCyclesProcess db fuel commands with
          | none => DriverOutcome.fatal
          | some cycles =>
            match pointerBoundsProcess db syscall_id with
            | none => DriverOutcome.fatal
            | some bounds =>
              match generate_const_file st commands with
              | (constFile, commands2, st2) =>
                match generate_description db fuel today st2
                    (FopsR.mk name syscall_id commands2 deps cycles bounds) with
                | none => DriverOutcome.fatal
                | some (desc, st3) => DriverOutcome.emitted constFile desc st3

/-! ## Concrete example databases -/

/-- An empty fact store. -/
def emptyDb : CodeDB := CodeDB.mk [] [] [] []

/-- `struct node { struct node *next; int x; };` — type 0 is the record,
type 1 the pointer `struct node *`, type 2 the builtin `int`. -/
def nodeDb : CodeDB :=
  CodeDB.mk
    [TypeEntry.mk 0 "node" "record" 96 [1, 2] ["next", "x"] [] false,
     TypeEntry.mk 1 "node *" "pointer" 64 [0] [] [] false,
     TypeEntry.mk 2 "int" "builtin" 32 [] [] [] false]
    [] [] []

/-- Three mutually referring records for the pointer-cycle merge:
`a { t *pt; }`, `t { a *pa; b *pb; }`, `b { t *pt; }` with record ids
10, 11, 12 and pointer ids 20 (to t), 21 (to a), 22 (to b). -/
def cycleDb : CodeDB :=
  CodeDB.mk
    [TypeEntry.mk 10 "a" "record" 64 [20] ["pt"] [] false,
     TypeEntry.mk 11 "t" "record" 128 [21, 22] ["pa", "pb"] [] false,
     TypeEntry.mk 12 "b" "record" 64 [20] ["pt"] [] false,
     TypeEntry.mk 20 "t *" "pointer" 64 [11] [] [] false,
     TypeEntry.mk 21 "a *" "pointer" 64 [10] [] [] false,
     TypeEntry.mk 22 "b *" "pointer" 64 [12] [] [] false]
    [] [] []

/-- A handler (function 1) whose single `copy_from_user` callsite passes
the same member deref as both the size and the pointer argument; type 5
is the parent record. -/
def boundsDb : CodeDB :=
  CodeDB.mk
    [TypeEntry.mk 5 "s" "record" 128 [2] ["len"] [] false,
     TypeEntry.mk 2 "int" "builtin" 32 [] [] [] false]
    [FuncEntry.mk 1 "handler" [] [] [] [100] [CallInfo.mk [0, 1, 0]]
       [DerefEntry.mk "member" [OffsetRef.mk "member" 0] [5] [1],
        DerefEntry.mk "unary" [OffsetRef.mk "function" 0] [] []],
     FuncEntry.mk 100 "copy_from_user" [] [] [] [] [] []]
    [] []

/-- A deref whose offsetref chain points back to itself: its kind is not
`member`, so the member walk steps to `derefs[offsetrefs[0].id]` — which
is this same deref — forever. -/
def loopDeref : DerefEntry :=
  DerefEntry.mk "unary" [OffsetRef.mk "member" 0] [] []

/-- A handler whose single `copy_from_user` callsite feeds `loopDeref` as
both the size and the pointer argument. -/
def loopFunc : FuncEntry :=
  FuncEntry.mk 1 "handler" [] [] [] [100] [CallInfo.mk [0, 0, 0]] [loopDeref]

/-- A CodeDB on which the member walk of `analyze_bounds` diverges at
depth 1 (well inside the depth cap). -/
def divDb : CodeDB :=
  CodeDB.mk []
    [loopFunc, FuncEntry.mk 100 "copy_from_user" [] [] [] [] [] []]
    [] []

/-- A function with one call that is not a user-copy function. -/
def plainDb : CodeDB :=
  CodeDB.mk
    []
    [FuncEntry.mk 7 "handler" [] [] [] [3] [] [],
     FuncEntry.mk 3 "helper" [] [] [] [] [] []]
    [] []

/-- Two single-field records whose ids 8 and 1 are listed in the
(legal CPython) set-iteration order `[8, 1]`. -/
def orderDb : CodeDB :=
  CodeDB.mk
    [TypeEntry.mk 8 "beta" "record" 32 [2] ["x"] [] false,
     TypeEntry.mk 1 "alpha" "record" 32 [2] ["y"] [] false,
     TypeEntry.mk 2 "int" "builtin" 32 [] [] [] false]
    [] [] []

/-- The handler record fed to `generate_description` in the emission-order
counterexample. -/
def orderFop : FopsR := FopsR.mk "h" 42 [] [8, 1] [] []

/-- A database containing one non-forward dispatch type. -/
def fopsDb : CodeDB :=
  CodeDB.mk
    [TypeEntry.mk 3 "file_operations" "record" 512 [] ["unlocked_ioctl"] [] false]
    [] [] []

/-- The well-formedness invariant of a recorded bounds map: every
`MemberBounds` sits under its own parent type id, and that parent — the
common `type[-1]` of both member derefs, checked by `analyze_bounds` — is
not a union whenever its entry is a record. -/
def BoundsMapOk (db : CodeDB) (m : BoundsMap) : Prop :=
  ∀ p ∈ m, ∀ mb ∈ p.2,
    mb.type_id = p.1 ∧
    ∃ anchor, db.typeById mb.type_id = some anchor ∧
      ¬(anchor.cls = "record" ∧ anchor.union = true)

/-- `d` is a detypedef-normal id: its entry exists and is not a typedef. -/
def DNormal (db : CodeDB) (d : Nat) : Prop :=
  ∃ t, db.typeById d = some t ∧ t.cls ≠ "typedef"

/-- One field-dependence step: a non-enum entry of `d` has a ref whose
detypedef is `x` (the edge the closure DFS follows). -/
def FieldStep (db : CodeDB) (fuel d x : Nat) : Prop :=
  ∃ t, db.typeById d = some t ∧ t.cls ≠ "enum" ∧
    ∃ r ∈ t.refs, detypedef db fuel r = some x

/-- Transitive field dependence. -/
inductive Reaches (db : CodeDB) (fuel : Nat) : Nat → Nat → Prop
  | refl (d : Nat) : Reaches db fuel d d
  | head {d x u : Nat} : FieldStep db fuel d x → Reaches db fuel x u →
      Reaches db fuel d u

/-- Every ref of a visited non-enum node has its detypedef in `S`: the
closure property the DFS establishes for its result set. -/
def Processed (db : CodeDB) (fuel d : Nat) (S : List Nat) : Prop :=
  ∀ t, db.typeById d = some t → t.cls ≠ "enum" →
    ∀ r ∈ t.refs, ∃ dd, detypedef db fuel r = some dd ∧ dd ∈ S

/-! ## Dictionary lemmas -/

theorem filter_find?_of_dictGet_none [BEq κ] [LawfulBEq κ]
    (a b : List (κ × α)) (k : κ) (h : dictGet a k = none) :
    List.find? (fun p => p.1 == k) (b.filter (fun p => (dictGet a p.1).isNone)) =
      List.find? (fun p => p.1 == k) b := by
  induction b with
  | nil => rfl
  | cons q rest ih =>
    by_cases hq : (q.1 == k) = true
    · have hqk : q.1 = k := eq_of_beq hq
      have hnone : (dictGet a q.1).isNone = true := by rw [hqk, h]; rfl
      simp [List.filter_cons, hnone, List.find?_cons, hq]
    · cases hcond : (dictGet a q.1).isNone
      · simpa [List.filter_cons, hcond, List.find?_cons, hq] using ih
      · simp only [List.filter_cons, hcond, if_pos rfl, List.find?_cons, hq]
        simpa [List.find?_cons, hq] using ih

theorem dictGet_dictMerge_of_some [BEq κ] [LawfulBEq κ] (a b : List (κ × α))
    (k : κ) (v : α) (hb : dictGet b k = some v) :
    dictGet (dictMerge a b) k = some v := by
  have h0 : dictGet (dictMerge a b) k =
      Option.map (fun p : κ × α => p.2)
        (List.find? (fun p : κ × α => p.1 == k) (dictMerge a b)) := rfl
  rw [h0]
  unfold dictMerge
  rw [List.find?_append, List.find?_map]
  have hcomp :
      ((fun p : κ × α => p.1 == k) ∘
        (fun p : κ × α => match dictGet b p.1 with
                          | some v => (p.1, v)
                          | none => p)) = fun p : κ × α => p.1 == k := by
    funext p
    simp only [Function.comp_apply]
    cases dictGet b p.1 <;> rfl
  rw [hcomp]
  cases ha : List.find? (fun p : κ × α => p.1 == k) a with
  | none =>
    have hga : dictGet a k = none := by
      show Option.map (fun p : κ × α => p.2)
        (List.find? (fun p : κ × α => p.1 == k) a) = none
      rw [ha]; rfl
    rw [filter_find?_of_dictGet_none a b k hga]
    have hfb : ∃ q : κ × α,
        List.find? (fun p : κ × α => p.1 == k) b = some q ∧ q.2 = v := by
      unfold dictGet at hb
      cases hf : List.find? (fun p : κ × α => p.1 == k) b with
      | none => rw [hf] at hb; simp at hb
      | some q =>
        rw [hf] at hb
        exact ⟨q, rfl, by simpa using hb⟩
    rcases hfb with ⟨q, hq, hqv⟩
    rw [hq]
    show some q.2 = some v
    rw [hqv]
  | some q =>
    have hqk : q.1 = k := eq_of_beq (by simpa using List.find?_some ha)
    have hbq : dictGet b q.1 = some v := by rw [hqk]; exact hb
    have hor : ∀ (x : κ × α) (y : Option (κ × α)), (some x).or y = some x :=
      fun _ _ => rfl
    simp only [Option.map_some', hor]
    rw [hbq]

theorem mem_dictMerge [BEq κ] [LawfulBEq κ] {a b : List (κ × α)} {q : κ × α}
    (h : q ∈ dictMerge a b) : q ∈ a ∨ q ∈ b := by
  unfold dictMerge at h
  rcases List.mem_append.mp h with hl | hr
  · rcases List.mem_map.mp hl with ⟨p, hp, hpq⟩
    cases hb : dictGet b p.1 with
    | none => left; rw [hb] at hpq; simpa [← hpq] using hp
    | some v =>
      right
      rw [hb] at hpq
      unfold dictGet at hb
      cases hf : List.find? (fun r : κ × α => r.1 == p.1) b with
      | none => rw [hf] at hb; simp at hb
      | some r =>
        rw [hf] at hb
        have hrv : r.2 = v := by simpa using hb
        have hrk : r.1 = p.1 := eq_of_beq (by simpa using List.find?_some hf)
        have hrb : r ∈ b := List.mem_of_find?_eq_some hf
        have : q = r := by
          rw [← hpq, ← hrk, ← hrv]
        rw [this]; exact hrb
  · exact Or.inr (List.mem_filter.mp hr).1

theorem mem_dictSet [BEq κ] [LawfulBEq κ] {m : List (κ × α)} {k : κ} {v : α}
    {q : κ × α} (h : q ∈ dictSet m k v) : q ∈ m ∨ q = (k, v) := by
  unfold dictSet at h
  by_cases hp : (dictGet m k).isSome
  · rw [if_pos hp] at h
    rcases List.mem_map.mp h with ⟨p, hpm, hpq⟩
    by_cases hk : (p.1 == k) = true
    · right
      rw [if_pos hk] at hpq
      rw [← hpq, eq_of_beq hk]
    · left
      rw [if_neg hk] at hpq
      rw [← hpq]; exact hpm
  · rw [if_neg hp] at h
    rcases List.mem_append.mp h with hl | hr
    · exact Or.inl hl
    · right; simpa using hr

theorem mem_setAdd [DecidableEq α] {s : List α} {x y : α}
    (h : y ∈ setAdd s x) : y ∈ s ∨ y = x := by
  unfold setAdd at h
  by_cases hx : x ∈ s
  · rw [if_pos hx] at h; exact Or.inl h
  · rw [if_neg hx] at h
    rcases List.mem_append.mp h with hl | hr
    · exact Or.inl hl
    · right; simpa using hr

/-! ## C2: direct self-referential pointer cycle -/

/-- C2.  For `struct node { struct node *next; int x; }` used as a
command root, the code records no pointer cycle at all (the
`derefed in traversed` check runs before the current type is added to
`traversed`), and the emitted field `next` is rendered `ptr[inout, node]`
without the `opt` flag — contradicting the claimed
`pointer_cycles[node] = [(node, 0)]` and `ptr[inout, node, opt]`. -/
theorem c2_self_cycle_not_recorded :
    analyze_pointer_cycles nodeDb 10 0 = some [] ∧
    pointerCyclesProcess nodeDb 10 [("NODE_CMD", 1, 0)] = some [] ∧
    (generate_record_definition nodeDb (GenState.mk [] [(0, ["node"])]) 10
        [] [] 0 "node" false).map
        (fun r => r.fields.map (fun f => f.name ++ " " ++ f.type_decl.render)) =
      some ["next ptr[inout, node]", "x int32"] :=
  ⟨rfl, rfl, rfl⟩

/-! ## C3: duplicate constant names within one handler -/

/-- C3.  Two commands of a single handler resolving to the same label
`FOO` are emitted as two constants that BOTH render as
`FOO_syzdescriptor` (the rename step only checks previously emitted
constants, which are empty here), contradicting the claimed
`FOO_syzdescriptor` / `FOO__syzdescriptor` pair. -/
theorem c3_duplicate_const_names :
    (generate_const_file (GenState.mk [] []) [("FOO", 1, 7), ("FOO", 2, 8)]).1 =
      "FOO_syzdescriptor = 1\nFOO_syzdescriptor = 2\n" ∧
    (generate_const_file (GenState.mk [] []) [("FOO", 1, 7), ("FOO", 2, 8)]).2.1 =
      [("FOO", 1, 7), ("FOO", 2, 8)] :=
  ⟨rfl, rfl⟩

/-! ## C5: depth caps -/

theorem recursivelyPickAux_depth_exceeded (db : CodeDB)
    (fuel fid argument_id depth max_depth : Nat) (h : depth > max_depth) :
    recursivelyPickAux db (fuel + 1) fid argument_id depth max_depth = some [] := by
  simp [recursivelyPickAux, h]

theorem analyzeBoundsAux_depth_exceeded (db : CodeDB)
    (fuel fid depth : Nat) (h : depth > 4) :
    analyzeBoundsAux db (fuel + 1) fid depth = some [] := by
  unfold analyzeBoundsAux
  cases hf : db.funcById fid with
  | none => rfl
  | some f => simp [h]

theorem walk_loop_diverges :
    ∀ fuel, walkToMember loopFunc fuel loopDeref loopDeref = none := by
  intro fuel
  induction fuel with
  | zero => rfl
  | succ fuel ih => exact ih

/-- C5 (amended).  The depth caps hold: a
`recursively_pick_ioctl_with_switchcase` frame at `depth > max_depth`
(the pipeline's max depth is 3) returns the empty list, and an
`analyze_bounds` frame at `depth > 4` returns the empty mapping, each
before doing any analysis.  But `analyze_bounds` does NOT terminate on
every CodeDB input: its member walk (`while binding_deref['kind'] !=
'member' or ...`) follows `offsetrefs[0].id` with no cycle guard, so on a
deref whose offsetref chain loops back to itself the walk runs forever —
no fuel makes the embedded walk finish, and `analyze_bounds` yields `none`
(the embedding's representation of the divergence) at depth 1, inside the
depth cap. -/
theorem c5_depth_caps_and_bounds_divergence (db db2 : CodeDB)
    (fid argument_id depth max_depth fid2 depth2 : Nat)
    (h1 : depth > max_depth) (h2 : depth2 > 4) :
    recursively_pick_ioctl_with_switchcase db fid argument_id depth max_depth =
      some [] ∧
    analyze_bounds db2 fid2 depth2 = some [] ∧
    (∀ fuel, walkToMember loopFunc fuel loopDeref loopDeref = none) ∧
    analyze_bounds divDb 1 1 = none := by
  refine ⟨?_, ?_, walk_loop_diverges, rfl⟩
  · show recursivelyPickAux db (max_depth + 1 + 1) fid argument_id depth max_depth =
      some []
    exact recursivelyPickAux_depth_exceeded db (max_depth + 1) fid argument_id
      depth max_depth h1
  · show analyzeBoundsAux db2 (5 + 1) fid2 depth2 = some []
    exact analyzeBoundsAux_depth_exceeded db2 5 fid2 depth2 h2

/-- C5 counterexample: on `divDb` — whose single user-copy callsite feeds
a deref with a self-looping offsetref chain — `analyze_bounds` diverges
(embedded as `none`) at depth 1, refuting "both functions terminate on
every CodeDB input". -/
theorem c5_counterexample :
    analyze_bounds divDb 1 1 = none ∧ ¬ (1 : Nat) > 4 :=
  ⟨rfl, by decide⟩

theorem c5_witness :
    4 > 3 ∧ 5 > 4 ∧
    (recursively_pick_ioctl_with_switchcase emptyDb 0 1 4 3 = some [] ∧
     analyze_bounds emptyDb 0 5 = some [] ∧
     (∀ fuel, walkToMember loopFunc fuel loopDeref loopDeref = none) ∧
     analyze_bounds divDb 1 1 = none) :=
  ⟨by decide, by decide,
   c5_depth_caps_and_bounds_divergence emptyDb emptyDb 0 1 4 3 0 5
     (by decide) (by decide)⟩

/-! ## C7: ioctl pass status and driver discard -/

/-- C7.  `IoctlAnalysisPass.process` reports success exactly when the
harvested command set is non-empty, and on failure the driver discards the
handler before any output file is rendered. -/
theorem c7_process_iff_commands_and_discard (db : CodeDB) (fuel : Nat)
    (today : String) (st : GenState) (name : String) (syscall_id : Nat)
    (cs : List Command) (b : Bool)
    (h : ioctlProcessResult db syscall_id = some (cs, b)) :
    (b = true ↔ cs ≠ []) ∧
    (cs = [] →
      driver_generate_description db fuel today st name syscall_id =
        DriverOutcome.discarded "IoctlAnalysisPass") := by
  have hb : b = decide (cs.length > 0) := by
    unfold ioctlProcessResult at h
    cases ha : analyze_ioctl_commands db syscall_id with
    | none => rw [ha] at h; simp at h
    | some cs0 =>
      rw [ha] at h
      simp only [Option.some.injEq, Prod.mk.injEq] at h
      rw [← h.1]
      exact h.2.symm
  constructor
  · rw [hb]
    constructor
    · intro hd hnil
      rw [hnil] at hd
      simp at hd
    · intro hne
      simp only [decide_eq_true_eq]
      cases cs with
      | nil => exact absurd rfl hne
      | cons c rest => simp
  · intro hnil
    have hbf : b = false := by
      rw [hb, hnil]; rfl
    unfold driver_generate_description
    rw [h, hbf]
    rfl

theorem c7_witness :
    ioctlProcessResult emptyDb 0 = some ([], false) ∧
    driver_generate_description emptyDb 10 "2026-01-01" (GenState.mk [] []) "h" 0 =
      DriverOutcome.discarded "IoctlAnalysisPass" :=
  ⟨rfl, (c7_process_iff_commands_and_discard emptyDb 10 "2026-01-01"
      (GenState.mk [] []) "h" 0 [] false rfl).2 rfl⟩

/-! ## C8: collector construction error -/

/-- C8.  Constructing the dispatch collector fails (raises, which is fatal
to the batch) exactly when the CodeDB has no type entry named
`file_operations` / `proc_ops` / `uart_ops` with a non-forward class; with
at least one such entry construction succeeds. -/
theorem c8_collector_raises_iff_no_dispatch_type (db : CodeDB) :
    (fopsCollectorInit db).isSome ↔
      ∃ t ∈ db.types, t.str ∈ FILE_OPERATIONS ∧ t.cls ≠ "record_forward" := by
  unfold fopsCollectorInit get_fops_types
  constructor
  · intro h
    by_cases hz :
        (db.types.filter
          (fun x => decide (x.str ∈ FILE_OPERATIONS) && x.cls != "record_forward")).length = 0
    · rw [if_pos hz] at h
      simp at h
    · rcases List.exists_mem_of_length_pos (Nat.pos_of_ne_zero hz) with ⟨t, ht⟩
      rcases List.mem_filter.mp ht with ⟨htm, htp⟩
      refine ⟨t, htm, ?_, ?_⟩
      · have := (Bool.and_eq_true _ _).mp htp
        exact of_decide_eq_true this.1
      · have := (Bool.and_eq_true _ _).mp htp
        intro hc
        rw [hc] at this
        simpa using this.2
  · rintro ⟨t, htm, hstr, hcls⟩
    have htf : t ∈ db.types.filter
        (fun x => decide (x.str ∈ FILE_OPERATIONS) && x.cls != "record_forward") := by
      refine List.mem_filter.mpr ⟨htm, ?_⟩
      refine (Bool.and_eq_true _ _).mpr ⟨decide_eq_true hstr, ?_⟩
      simpa using hcls
    have hz : (db.types.filter
        (fun x => decide (x.str ∈ FILE_OPERATIONS) && x.cls != "record_forward")).length ≠ 0 := by
      intro h0
      rw [List.length_eq_zero] at h0
      rw [h0] at htf
      simp at htf
    rw [if_neg hz]
    rfl

/-! ## C10: later command root replaces earlier pointer-cycle entries -/

/-- C10.  `PointerCyclesPass.process` merges per-root results with the
dict-spread `{**acc, **new}`, so for any type id present in the result of
the last root in commands iteration order, the final mapping holds exactly
that root's list, discarding any earlier root's list for the same key. -/
theorem c10_later_root_replaces (db : CodeDB) (fuel : Nat)
    (cmds : List Command) (c : Command) (m mc : CycleMap) (T : Nat)
    (v : List PointerCycle)
    (h : pointerCyclesProcess db fuel (cmds ++ [c]) = some m)
    (hc : analyze_pointer_cycles db fuel c.2.2 = some mc)
    (hT : dictGet mc T = some v) :
    dictGet m T = some v := by
  unfold pointerCyclesProcess at h
  rw [List.foldlM_append] at h
  cases hacc : List.foldlM
      (fun acc c =>
        match analyze_pointer_cycles db fuel c.2.2 with
        | none => none
        | some m => some (dictMerge acc m))
      ([] : CycleMap) cmds with
  | none =>
    rw [hacc] at h
    simp at h
  | some acc =>
    rw [hacc] at h
    simp only [Option.bind_eq_bind, Option.some_bind, List.foldlM_cons,
      List.foldlM_nil] at h
    rw [hc] at h
    simp only [Option.some_bind, Option.pure_def, Option.some.injEq] at h
    rw [← h]
    exact dictGet_dictMerge_of_some acc mc T v hT

theorem c10_witness :
    pointerCyclesProcess cycleDb 10 [("A", 1, 10), ("B", 2, 12)] =
      some [(11, [PointerCycle.mk 12 1]), (12, [PointerCycle.mk 11 0]),
            (10, [PointerCycle.mk 11 0])] ∧
    analyze_pointer_cycles cycleDb 10 12 =
      some [(11, [PointerCycle.mk 12 1]), (10, [PointerCycle.mk 11 0])] ∧
    dictGet [(11, [PointerCycle.mk 12 1]), (10, [PointerCycle.mk 11 0])] 11 =
      some [PointerCycle.mk 12 1] ∧
    dictGet [(11, [PointerCycle.mk 12 1]), (12, [PointerCycle.mk 11 0]),
            (10, [PointerCycle.mk 11 0])] 11 = some [PointerCycle.mk 12 1] :=
  ⟨rfl, rfl, rfl,
   c10_later_root_replaces cycleDb 10 [("A", 1, 10)] ("B", 2, 12) _ _ 11 _
     rfl rfl rfl⟩

/-! ## C9: user-copy gating of the bounds analysis -/

theorem mem_findIndexes {l : List Nat} {e i : Nat}
    (h : i ∈ findIndexesOfElement l e) : l[i]? = some e := by
  unfold findIndexesOfElement at h
  rcases List.mem_filter.mp h with ⟨_, hip⟩
  simpa using hip

theorem findIndexes_ne_nil_of_mem {l : List Nat} {e : Nat} (h : e ∈ l) :
    findIndexesOfElement l e ≠ [] := by
  rcases List.mem_iff_getElem?.mp h with ⟨i, hi⟩
  have hlt : i < l.length := (List.getElem?_eq_some.mp hi).1
  have him : i ∈ findIndexesOfElement l e := by
    unfold findIndexesOfElement
    exact List.mem_filter.mpr ⟨List.mem_range.mpr hlt, by simp [hi]⟩
  exact List.ne_nil_of_mem him

theorem mem_idToName_keys (db : CodeDB) (c : Nat) :
    c ∈ (idToName db).map (fun p => p.1) ↔
      ∃ g ∈ db.funcs,
        (g.name = "copy_from_user" ∨ g.name = "copy_to_user") ∧ g.id = c := by
  unfold idToName CodeDB.funcsByName
  constructor
  · intro h
    rcases List.mem_map.mp h with ⟨p, hp, hpc⟩
    rcases List.mem_flatMap.mp hp with ⟨n, hn, hpn⟩
    rcases List.mem_map.mp hpn with ⟨g, hg, hgp⟩
    have hgm : g ∈ db.funcs := (List.mem_filter.mp hg).1
    have hgn : g.name = n := by
      have := (List.mem_filter.mp hg).2
      simpa using this
    have hnlist : n = "copy_from_user" ∨ n = "copy_to_user" := by
      have : n ∈ ["copy_from_user", "copy_to_user"] := by
        simpa [BINDING_CALLS] using hn
      simpa using this
    refine ⟨g, hgm, by rw [hgn]; exact hnlist, ?_⟩
    rw [← hpc, ← hgp]
  · rintro ⟨g, hg, hname, hid⟩
    refine List.mem_map.mpr ⟨(g.id, g.name), ?_, hid⟩
    refine List.mem_flatMap.mpr ⟨g.name, ?_, ?_⟩
    · show g.name ∈ (BINDING_CALLS.map (fun p => p.1))
      have : (BINDING_CALLS.map (fun p : String × List (Nat × Nat) => p.1)) =
          ["copy_from_user", "copy_to_user"] := rfl
      rw [this]
      simpa using hname
    · exact List.mem_map.mpr ⟨g, List.mem_filter.mpr ⟨hg, by simp⟩, rfl⟩

theorem callIndexes_ne_nil_iff (db : CodeDB) (f : FuncEntry) :
    callIndexes db f ≠ [] ↔
      ∃ c ∈ f.calls, ∃ g ∈ db.funcs,
        (g.name = "copy_from_user" ∨ g.name = "copy_to_user") ∧ g.id = c := by
  constructor
  · intro h
    rcases List.exists_mem_of_ne_nil _ h with ⟨i, hi⟩
    rcases List.mem_flatMap.mp hi with ⟨c, hc, hic⟩
    have hcl : c ∈ f.calls :=
      List.mem_iff_getElem?.mpr ⟨i, mem_findIndexes hic⟩
    rcases (mem_idToName_keys db c).mp hc with ⟨g, hg, hname, hid⟩
    exact ⟨c, hcl, g, hg, hname, hid⟩
  · rintro ⟨c, hcl, g, hg, hname, hid⟩
    have hkey : c ∈ (idToName db).map (fun p => p.1) :=
      (mem_idToName_keys db c).mpr ⟨g, hg, hname, hid⟩
    rcases List.exists_mem_of_ne_nil _ (findIndexes_ne_nil_of_mem hcl) with ⟨i, hi⟩
    have : i ∈ callIndexes db f :=
      List.mem_flatMap.mpr ⟨c, hkey, hi⟩
    exact List.ne_nil_of_mem this

/-- C9.  When the entry function has no direct call to `copy_from_user` or
`copy_to_user`, `analyze_bounds` returns the empty mapping without
recursing into any callee; and whenever it returns a non-empty mapping for
some function, that function itself directly calls a user-copy function —
so bound pairs are discovered only along call chains in which every
function up to them directly calls one. -/
theorem c9_no_user_copy_no_bounds (db : CodeDB) (fid depth : Nat) (f : FuncEntry)
    (hf : db.funcById fid = some f)
    (hno : ¬ ∃ c ∈ f.calls, ∃ g ∈ db.funcs,
        (g.name = "copy_from_user" ∨ g.name = "copy_to_user") ∧ g.id = c) :
    analyze_bounds db fid depth = some [] ∧
    (∀ fid2 depth2 res, analyze_bounds db fid2 depth2 = some res → res ≠ [] →
      ∃ f2, db.funcById fid2 = some f2 ∧ ∃ c ∈ f2.calls, ∃ g ∈ db.funcs,
        (g.name = "copy_from_user" ∨ g.name = "copy_to_user") ∧ g.id = c) := by
  have hci : callIndexes db f = [] := by
    by_contra h
    exact hno ((callIndexes_ne_nil_iff db f).mp h)
  constructor
  · show analyzeBoundsAux db (5 + 1) fid depth = some []
    simp only [analyzeBoundsAux, hf]
    rw [if_pos (Or.inr hci)]
  · intro fid2 depth2 res h hres
    cases hf2 : db.funcById fid2 with
    | none =>
      exfalso
      apply hres
      have hnil : analyze_bounds db fid2 depth2 = some [] := by
        show analyzeBoundsAux db (5 + 1) fid2 depth2 = some []
        simp only [analyzeBoundsAux, hf2]
      exact Option.some.inj (h.symm.trans hnil)
    | some f2 =>
      by_cases hg : depth2 > 4 ∨ callIndexes db f2 = []
      · exfalso
        apply hres
        have hnil : analyze_bounds db fid2 depth2 = some [] := by
          show analyzeBoundsAux db (5 + 1) fid2 depth2 = some []
          simp only [analyzeBoundsAux, hf2]
          rw [if_pos hg]
        exact Option.some.inj (h.symm.trans hnil)
      · push_neg at hg
        exact ⟨f2, rfl, (callIndexes_ne_nil_iff db f2).mp hg.2⟩

theorem c9_witness :
    analyze_bounds plainDb 7 1 = some [] :=
  (c9_no_user_copy_no_bounds plainDb 7 1
    (FuncEntry.mk 7 "handler" [] [] [] [3] [] []) rfl (by decide)).1

/-! ## C4: bounds invariant -/

theorem dictGet_mem [BEq κ] [LawfulBEq κ] {m : List (κ × α)} {k : κ} {v : α}
    (h : dictGet m k = some v) : (k, v) ∈ m := by
  unfold dictGet at h
  cases hf : List.find? (fun p : κ × α => p.1 == k) m with
  | none => rw [hf] at h; simp at h
  | some q =>
    rw [hf] at h
    have hv : q.2 = v := by simpa using h
    have hk : q.1 = k := eq_of_beq (by simpa using List.find?_some hf)
    have hq : (k, v) = q := by rw [← hk, ← hv]
    rw [hq]
    exact List.mem_of_find?_eq_some hf

theorem foldlM_option_preserve {α β : Type} (step : β → α → Option β)
    (P : β → Prop)
    (hstep : ∀ acc x r, P acc → step acc x = some r → P r) :
    ∀ (l : List α) (acc res : β), P acc →
      List.foldlM step acc l = some res → P res := by
  intro l
  induction l with
  | nil =>
    intro acc res hP h
    rw [List.foldlM_nil] at h
    cases h
    exact hP
  | cons x xs ih =>
    intro acc res hP h
    rw [List.foldlM_cons] at h
    cases hs : step acc x with
    | none => rw [hs] at h; simp at h
    | some acc2 =>
      rw [hs] at h
      simp only [Option.bind_eq_bind, Option.some_bind] at h
      exact ih acc2 res (hstep acc x acc2 hP hs) h

theorem boundsInsert_ok (db : CodeDB) (res : BoundsMap) (tid : Nat)
    (mb : MemberBounds) (hok : BoundsMapOk db res)
    (hkey : mb.type_id = tid)
    (hanchor : ∃ anchor, db.typeById mb.type_id = some anchor ∧
      ¬(anchor.cls = "record" ∧ anchor.union = true)) :
    BoundsMapOk db (boundsInsert res tid mb) := by
  unfold boundsInsert
  cases hget : dictGet res tid with
  | none =>
    intro p hp mb2 hmb2
    rcases mem_dictSet hp with hpm | hpe
    · exact hok p hpm mb2 hmb2
    · rw [hpe] at hmb2 ⊢
      have : mb2 = mb := by simpa using hmb2
      rw [this]
      exact ⟨hkey, hanchor⟩
  | some l =>
    cases l with
    | nil =>
      intro p hp mb2 hmb2
      rcases mem_dictSet hp with hpm | hpe
      · exact hok p hpm mb2 hmb2
      · rw [hpe] at hmb2 ⊢
        have : mb2 = mb := by simpa using hmb2
        rw [this]
        exact ⟨hkey, hanchor⟩
    | cons x xs =>
      intro p hp mb2 hmb2
      rcases mem_dictSet hp with hpm | hpe
      · exact hok p hpm mb2 hmb2
      · rw [hpe] at hmb2 ⊢
        rcases mem_setAdd hmb2 with hin | heq
        · have hmem : ((tid, x :: xs) : Nat × List MemberBounds) ∈ res :=
            dictGet_mem hget
          exact hok (tid, x :: xs) hmem mb2 hin
        · rw [heq]
          exact ⟨hkey, hanchor⟩

theorem recordFromWalk_ok (db : CodeDB) (bd dd : DerefEntry)
    (res res2 : BoundsMap) (hok : BoundsMapOk db res)
    (h : recordFromWalk db bd dd res = some res2) : BoundsMapOk db res2 := by
  unfold recordFromWalk at h
  cases hbt : bd.type.getLast? with
  | none => simp only [hbt] at h; exact Option.noConfusion h
  | some bt =>
    cases hdt : dd.type.getLast? with
    | none => simp only [hbt, hdt] at h; exact Option.noConfusion h
    | some dt =>
      simp only [hbt, hdt] at h
      by_cases hne : bt ≠ dt
      · rw [if_pos hne] at h
        cases h
        exact hok
      · rw [if_neg hne] at h
        cases ha : db.typeById dt with
        | none => simp only [ha] at h; exact Option.noConfusion h
        | some anchor =>
          simp only [ha] at h
          by_cases hu : anchor.cls = "record" ∧ anchor.union = true
          · rw [if_pos hu] at h
            cases h
            exact hok
          · rw [if_neg hu] at h
            cases hbm : bd.member.getLast? with
            | none => simp only [hbm] at h; exact Option.noConfusion h
            | some bm =>
              cases hdm : dd.member.getLast? with
              | none => simp only [hbm, hdm] at h; exact Option.noConfusion h
              | some dm =>
                simp only [hbm, hdm, Option.some.injEq] at h
                rw [← h]
                exact boundsInsert_ok db res dt (MemberBounds.mk dt bm dm) hok rfl
                  ⟨anchor, ha, hu⟩

theorem processModel_ok (db : CodeDB) (f : FuncEntry) (ci : Nat)
    (model : Nat × Nat) (res res2 : BoundsMap) (hok : BoundsMapOk db res)
    (h : processModel db f ci model res = some res2) : BoundsMapOk db res2 := by
  unfold processModel at h
  cases h1 : f.call_info[ci]? with
  | none => simp only [h1] at h; exact Option.noConfusion h
  | some cinfo =>
    simp only [h1] at h
    cases h2 : cinfo.args[model.1]? with
    | none => simp only [h2] at h; exact Option.noConfusion h
    | some bi =>
      simp only [h2] at h
      cases h3 : f.derefs[bi]? with
      | none => simp only [h3] at h; exact Option.noConfusion h
      | some binding_deref =>
        simp only [h3] at h
        cases h4 : cinfo.args[model.2]? with
        | none => simp only [h4] at h; exact Option.noConfusion h
        | some di =>
          simp only [h4] at h
          cases h5 : f.derefs[di]? with
          | none => simp only [h5] at h; exact Option.noConfusion h
          | some bound_deref =>
            simp only [h5] at h
            cases h6 : binding_deref.offsetrefs.head? with
            | none => simp only [h6] at h; exact Option.noConfusion h
            | some bo =>
              simp only [h6] at h
              by_cases h7 : bo.kind ≠ "member"
              · rw [if_pos h7] at h
                cases h
                exact hok
              · rw [if_neg h7] at h
                cases h8 : bound_deref.offsetrefs.head? with
                | none => simp only [h8] at h; exact Option.noConfusion h
                | some dof =>
                  simp only [h8] at h
                  by_cases h9 : dof.kind ≠ "member"
                  · rw [if_pos h9] at h
                    cases h
                    exact hok
                  · rw [if_neg h9] at h
                    cases h10 : walkToMember f
                        ((f.derefs.length + 1) * (f.derefs.length + 1) + 1)
                        binding_deref bound_deref with
                    | none => simp only [h10] at h; exact Option.noConfusion h
                    | some pair =>
                      simp only [h10] at h
                      exact recordFromWalk_ok db pair.1 pair.2 res res2 hok h

theorem processCallIndex_ok (db : CodeDB) (f : FuncEntry) (ci : Nat)
    (res res2 : BoundsMap) (hok : BoundsMapOk db res)
    (h : processCallIndex db f ci res = some res2) : BoundsMapOk db res2 := by
  unfold processCallIndex at h
  cases h1 : f.calls[ci]? with
  | none => simp only [h1] at h; exact Option.noConfusion h
  | some callee =>
    simp only [h1] at h
    cases h2 : dictGet (idToName db) callee with
    | none => simp only [h2] at h; exact Option.noConfusion h
    | some name =>
      simp only [h2] at h
      cases h3 : dictGet BINDING_CALLS name with
      | none => simp only [h3] at h; exact Option.noConfusion h
      | some models =>
        simp only [h3] at h
        exact foldlM_option_preserve
          (fun acc m => processModel db f ci m acc) (BoundsMapOk db)
          (fun acc x r hP hs => processModel_ok db f ci x acc r hP hs)
          models res res2 hok h

theorem dictMerge_ok (db : CodeDB) {a b : BoundsMap}
    (ha : BoundsMapOk db a) (hb : BoundsMapOk db b) :
    BoundsMapOk db (dictMerge a b) := by
  intro p hp mb hmb
  rcases mem_dictMerge hp with h | h
  · exact ha p h mb hmb
  · exact hb p h mb hmb

theorem analyzeBoundsAux_ok (db : CodeDB) :
    ∀ fuel fid depth res, analyzeBoundsAux db fuel fid depth = some res →
      BoundsMapOk db res := by
  intro fuel
  induction fuel with
  | zero =>
    intro fid depth res h
    simp [analyzeBoundsAux] at h
  | succ fuel ih =>
    intro fid depth res h
    simp only [analyzeBoundsAux] at h
    cases hf : db.funcById fid with
    | none =>
      simp only [hf, Option.some.injEq] at h
      rw [← h]
      intro p hp
      simp at hp
    | some f =>
      simp only [hf] at h
      by_cases hg : depth > 4 ∨ callIndexes db f = []
      · rw [if_pos hg] at h
        simp only [Option.some.injEq] at h
        rw [← h]
        intro p hp
        simp at hp
      · rw [if_neg hg] at h
        cases hfold : List.foldlM (fun acc ci => processCallIndex db f ci acc)
            ([] : BoundsMap) (callIndexes db f) with
        | none => simp only [hfold] at h; exact Option.noConfusion h
        | some res0 =>
          simp only [hfold] at h
          have hres0 : BoundsMapOk db res0 :=
            foldlM_option_preserve
              (fun acc ci => processCallIndex db f ci acc) (BoundsMapOk db)
              (fun acc x r hP hs => processCallIndex_ok db f x acc r hP hs)
              (callIndexes db f) [] res0 (by intro p hp; simp at hp) hfold
          exact foldlM_option_preserve
            (fun acc call =>
              match analyzeBoundsAux db fuel call (depth + 1) with
              | none => none
              | some sub => some (dictMerge acc sub))
            (BoundsMapOk db)
            (fun acc x r hP hs => by
              cases hsub : analyzeBoundsAux db fuel x (depth + 1) with
              | none => simp only [hsub] at hs; exact Option.noConfusion hs
              | some sub =>
                simp only [hsub, Option.some.injEq] at hs
                rw [← hs]
                exact dictMerge_ok db hP (ih x (depth + 1) sub hsub))
            f.calls res0 res hres0 h

/-- C4 (amended).  Every `MemberBounds` recorded by `analyze_bounds` is
stored under its own parent type id — the common `type[-1]` of both member
derefs, whose equality the analyzer checks — and whenever that parent's
type entry is a record it is not a union.  (The binding and bound member
indices are NOT required to be distinct; see the counterexample.) -/
theorem c4_bounds_same_parent_non_union (db : CodeDB) (fid depth : Nat)
    (res : BoundsMap) (h : analyze_bounds db fid depth = some res) :
    ∀ p ∈ res, ∀ mb ∈ p.2,
      mb.type_id = p.1 ∧
      ∃ anchor, db.typeById mb.type_id = some anchor ∧
        ¬(anchor.cls = "record" ∧ anchor.union = true) :=
  analyzeBoundsAux_ok db 6 fid depth res h

/-- C4 counterexample: a `copy_from_user` callsite whose size and pointer
arguments resolve to the SAME member produces a recorded pair with equal
binding and bound indices, refuting the claimed index distinctness. -/
theorem c4_counterexample :
    analyze_bounds boundsDb 1 1 = some [(5, [MemberBounds.mk 5 1 1])] ∧
    (MemberBounds.mk 5 1 1).binding_member = (MemberBounds.mk 5 1 1).bound_member :=
  ⟨rfl, rfl⟩

theorem c4_witness :
    (MemberBounds.mk 5 1 1).type_id = ((5 : Nat), [MemberBounds.mk 5 1 1]).1 ∧
    ∃ anchor, boundsDb.typeById (MemberBounds.mk 5 1 1).type_id = some anchor ∧
      ¬(anchor.cls = "record" ∧ anchor.union = true) :=
  c4_bounds_same_parent_non_union boundsDb 1 1 [(5, [MemberBounds.mk 5 1 1])] rfl
    (5, [MemberBounds.mk 5 1 1]) (by simp) (MemberBounds.mk 5 1 1) (by simp)

/-! ## C6: emission order of type definitions -/

theorem assign_name_fst (db : CodeDB) (st : GenState) (fuel typeid : Nat)
    (p : Nat × String) (st2 : GenState)
    (h : assign_name_to_type db st fuel typeid = some (some p, st2)) :
    p.1 = typeid := by
  unfold assign_name_to_type at h
  cases hg : dictGet st.generated_types typeid with
  | some l =>
    cases l with
    | nil =>
      simp only [hg] at h
      cases hd : detypedef db fuel typeid with
      | none => simp only [hd] at h; exact Option.noConfusion h
      | some d =>
        simp only [hd] at h
        cases ht : db.typeById d with
        | none => simp only [ht] at h; exact Option.noConfusion h
        | some t =>
          simp only [ht] at h
          by_cases hc : t.cls ≠ "record" ∧ t.cls ≠ "enum"
          · rw [if_pos hc] at h
            simp at h
          · rw [if_neg hc] at h
            simp only [Option.some.injEq, Prod.mk.injEq] at h
            rw [← h.1]
    | cons x xs =>
      simp only [hg] at h
      simp only [Option.some.injEq, Prod.mk.injEq] at h
      rw [← h.1]
  | none =>
    simp only [hg] at h
    cases hd : detypedef db fuel typeid with
    | none => simp only [hd] at h; exact Option.noConfusion h
    | some d =>
      simp only [hd] at h
      cases ht : db.typeById d with
      | none => simp only [ht] at h; exact Option.noConfusion h
      | some t =>
        simp only [ht] at h
        by_cases hc : t.cls ≠ "record" ∧ t.cls ≠ "enum"
        · rw [if_pos hc] at h
          simp at h
        · rw [if_neg hc] at h
          simp only [Option.some.injEq, Prod.mk.injEq] at h
          rw [← h.1]

theorem typeDefsList_length (db : CodeDB) (st : GenState) (fuel : Nat)
    (bounds : BoundsMap) (cycles : CycleMap) :
    ∀ (pairs : List (Nat × String)) (defs : List String),
      typeDefsList db st fuel bounds cycles pairs = some defs →
      defs.length = pairs.length := by
  intro pairs
  induction pairs with
  | nil =>
    intro defs h
    simp only [typeDefsList, Option.some.injEq] at h
    rw [← h]
    rfl
  | cons p rest ih =>
    intro defs h
    unfold typeDefsList at h
    cases h1 : generate_type_definition db st fuel bounds cycles p.1 p.2 with
    | none => simp only [h1] at h; exact Option.noConfusion h
    | some s =>
      simp only [h1] at h
      cases h2 : typeDefsList db st fuel bounds cycles rest with
      | none => simp only [h2] at h; exact Option.noConfusion h
      | some l =>
        simp only [h2, Option.some.injEq] at h
        rw [← h]
        simp [ih l h2]

/-- C6 (amended).  `generate_description` emits the type definitions in
the iteration order of `fop.deps` (those deps that resolve to a record or
enum) — one rendered definition per assigned dependency, with NO sorting
by type-id applied. -/
theorem c6_deps_emitted_in_iteration_order (db : CodeDB) (fuel : Nat)
    (st stX : GenState) (deps : List Nat) (pairs : List (Nat × String))
    (st2 : GenState) (bounds : BoundsMap) (cycles : CycleMap)
    (defs : List String)
    (h : assignDeps db fuel st deps = some (pairs, st2))
    (hdefs : typeDefsList db stX fuel bounds cycles pairs = some defs) :
    (pairs.map (fun p => p.1)).Sublist deps ∧ defs.length = pairs.length := by
  refine ⟨?_, typeDefsList_length db stX fuel bounds cycles pairs defs hdefs⟩
  clear hdefs
  induction deps generalizing st pairs with
  | nil =>
    simp only [assignDeps, Option.some.injEq, Prod.mk.injEq] at h
    rw [← h.1]
    exact List.Sublist.refl []
  | cons tid rest ih =>
    unfold assignDeps at h
    cases ha : assign_name_to_type db st fuel tid with
    | none => simp only [ha] at h; exact Option.noConfusion h
    | some r =>
      simp only [ha] at h
      cases hrest : assignDeps db fuel r.2 rest with
      | none => simp only [hrest] at h; exact Option.noConfusion h
      | some q =>
        simp only [hrest, Option.some.injEq, Prod.mk.injEq] at h
        have hQ : assignDeps db fuel r.2 rest = some (q.1, st2) := by
          rw [← h.2]
          exact hrest
        have hsub : (q.1.map (fun p => p.1)).Sublist rest := ih r.2 q.1 hQ
        cases hr1 : r.1 with
        | none =>
          rw [hr1] at h
          have hp : pairs = q.1 := by
            rw [← h.1]
            simp
          rw [hp]
          exact hsub.cons tid
        | some p =>
          rw [hr1] at h
          have hp : pairs = p :: q.1 := by
            rw [← h.1]
            simp
          have hfst : p.1 = tid := by
            apply assign_name_fst db st fuel tid p r.2
            rw [ha, ← hr1]
          rw [hp]
          simp only [List.map_cons, hfst]
          exact hsub.cons₂ tid

/-- C6 counterexample: with the (legal CPython) set-iteration order
`[8, 1]` of `deps = {8, 1}`, the description file contains the definition
of type 8 (`beta`) before that of type 1 (`alpha`) — the emission is not
in ascending type-id order and nothing sorts it. -/
theorem c6_counterexample :
    emittedDepIds orderDb 10 (GenState.mk [] []) orderFop.deps = some [8, 1] ∧
    ¬ List.Sorted (· ≤ ·) [8, 1] ∧
    (generate_description orderDb 10 "2026-01-01" (GenState.mk [] [])
        orderFop).map (fun p => p.1) =
      some ("# Generated by syzdescriptor on 2026-01-01\n# Path constant is: SYZDESCRIPTOR_PATH_42\n# Anchor function ID is: 42\ninclude <linux/ioctl.h>\ninclude <linux/types.h>\n\nresource fd_h[fd]\n\nopenat$h_syzdescriptor(fd const[AT_FDCWD], file ptr[in, string[SYZDESCRIPTOR_PATH_42_syzdescriptor]], flags flags[open_flags], mode const[0]) fd_h\n\n\nbeta \x7b\n\tx int32\n\x7d\n\nalpha \x7b\n\ty int32\n\x7d\n\n") :=
  ⟨rfl, by decide, rfl⟩

theorem c6_witness :
    (([((8 : Nat), "beta"), (1, "alpha")].map (fun p => p.1)).Sublist [8, 1] ∧
      ([("beta \x7b\n\tx int32\n\x7d\n\n"), ("alpha \x7b\n\ty int32\n\x7d\n\n")].length =
        [((8 : Nat), "beta"), (1, "alpha")].length)) :=
  c6_deps_emitted_in_iteration_order orderDb 10 (GenState.mk [] [])
    (GenState.mk [] [(8, ["beta"]), (1, ["alpha"])]) [8, 1]
    [(8, "beta"), (1, "alpha")]
    (GenState.mk [] [(8, ["beta"]), (1, ["alpha"])]) [] []
    ["beta \x7b\n\tx int32\n\x7d\n\n", "alpha \x7b\n\ty int32\n\x7d\n\n"]
    rfl rfl

/-! ## C1: detypedef normal forms -/

theorem find?_id_of_mem {l : List TypeEntry}
    (hn : (l.map (fun t => t.id)).Nodup) {t : TypeEntry} (ht : t ∈ l) :
    l.find? (fun x => x.id == t.id) = some t := by
  induction l with
  | nil => cases ht
  | cons hd rest ih =>
    rw [List.find?_cons]
    by_cases hh : (hd.id == t.id) = true
    · rw [hh]
      have hid : hd.id = t.id := eq_of_beq hh
      rcases List.mem_cons.mp ht with h | h
      · rw [h]
      · exfalso
        have : t.id ∈ rest.map (fun t => t.id) :=
          List.mem_map.mpr ⟨t, h, rfl⟩
        have hnodup : hd.id ∉ rest.map (fun t => t.id) :=
          (List.nodup_cons.mp hn).1
        rw [hid] at hnodup
        exact hnodup this
    · have hh2 : (hd.id == t.id) = false := by
        simpa using hh
      rw [hh2]
      rcases List.mem_cons.mp ht with h | h
      · exfalso
        apply hh
        rw [h]
        simp
      · exact ih (List.nodup_cons.mp hn).2 h

theorem typeById_of_mem (db : CodeDB) (hn : NodupIds db) {t : TypeEntry}
    (ht : t ∈ db.types) : db.typeById t.id = some t :=
  find?_id_of_mem hn ht

theorem detypedefAux_DNormal (db : CodeDB) (hn : NodupIds db) :
    ∀ fuel (t : TypeEntry) (r : Nat), t ∈ db.types →
      detypedefAux db fuel t = some r → DNormal db r := by
  intro fuel
  induction fuel with
  | zero => intro t r _ h; simp [detypedefAux] at h
  | succ fuel ih =>
    intro t r htm h
    simp only [detypedefAux] at h
    by_cases hc : t.cls = "typedef"
    · rw [if_pos hc] at h
      cases h0 : t.refs[0]? with
      | none => simp only [h0] at h; exact Option.noConfusion h
      | some r0 =>
        simp only [h0] at h
        cases h1 : db.typeById r0 with
        | none => simp only [h1] at h; exact Option.noConfusion h
        | some t2 =>
          simp only [h1] at h
          exact ih t2 r (List.mem_of_find?_eq_some h1) h
    · rw [if_neg hc] at h
      simp only [Option.some.injEq] at h
      rw [← h]
      exact ⟨t, typeById_of_mem db hn htm, hc⟩

theorem detypedef_DNormal (db : CodeDB) (hn : NodupIds db) {fuel tid r : Nat}
    (h : detypedef db fuel tid = some r) : DNormal db r := by
  unfold detypedef at h
  cases ht : db.typeById tid with
  | none => rw [ht] at h; exact Option.noConfusion h
  | some t =>
    rw [ht] at h
    exact detypedefAux_DNormal db hn fuel t r (List.mem_of_find?_eq_some ht) h

theorem detypedef_fixpoint (db : CodeDB) {d : Nat} (hd : DNormal db d)
    (fuel : Nat) : detypedef db (fuel + 1) d = some d := by
  rcases hd with ⟨t, ht, hcls⟩
  unfold detypedef
  rw [ht]
  simp only [detypedefAux]
  rw [if_neg hcls]
  have hbeq : (t.id == d) = true := by
    have := List.find?_some (p := fun x : TypeEntry => x.id == d) ht
    simpa using this
  rw [eq_of_beq hbeq]

theorem detypedefAux_mono (db : CodeDB) :
    ∀ fuel fuel2 (t : TypeEntry) (r : Nat), fuel ≤ fuel2 →
      detypedefAux db fuel t = some r → detypedefAux db fuel2 t = some r := by
  intro fuel
  induction fuel with
  | zero => intro _ _ _ _ h; simp [detypedefAux] at h
  | succ fuel ih =>
    intro fuel2 t r hle h
    cases fuel2 with
    | zero => exact absurd hle (by omega)
    | succ fuel2 =>
      simp only [detypedefAux] at h ⊢
      by_cases hc : t.cls = "typedef"
      · rw [if_pos hc] at h ⊢
        cases h0 : t.refs[0]? with
        | none => simp only [h0] at h; exact Option.noConfusion h
        | some r0 =>
          simp only [h0] at h ⊢
          cases h1 : db.typeById r0 with
          | none => simp only [h1] at h; exact Option.noConfusion h
          | some t2 =>
            simp only [h1] at h ⊢
            exact ih fuel2 t2 r (by omega) h
      · rw [if_neg hc] at h ⊢
        exact h

theorem detypedef_mono (db : CodeDB) {fuel fuel2 tid r : Nat}
    (hle : fuel ≤ fuel2) (h : detypedef db fuel tid = some r) :
    detypedef db fuel2 tid = some r := by
  unfold detypedef at h ⊢
  cases ht : db.typeById tid with
  | none => rw [ht] at h; exact Option.noConfusion h
  | some t =>
    rw [ht] at h
    exact detypedefAux_mono db fuel fuel2 t r hle h

theorem Processed_mono_S (db : CodeDB) {fuel d : Nat} {S S2 : List Nat}
    (hsub : S ⊆ S2) (h : Processed db fuel d S) : Processed db fuel d S2 := by
  intro t ht he r hr
  rcases h t ht he r hr with ⟨dd, hdd, hmem⟩
  exact ⟨dd, hdd, hsub hmem⟩

theorem Processed_mono_fuel (db : CodeDB) {fuel fuel2 d : Nat} {S : List Nat}
    (hle : fuel ≤ fuel2) (h : Processed db fuel d S) :
    Processed db fuel2 d S := by
  intro t ht he r hr
  rcases h t ht he r hr with ⟨dd, hdd, hmem⟩
  exact ⟨dd, detypedef_mono db hle hdd, hmem⟩

/-! ## C1: the closure DFS invariant -/

theorem findDepsRefs_invariant (db : CodeDB) (hn : NodupIds db) (fuel : Nat)
    (IH : ∀ tid found res, DNormal db tid → (∀ x ∈ found, DNormal db x) →
      findDepsAux db fuel tid found = some res →
      found ⊆ res ∧ tid ∈ res ∧ (∀ d ∈ res, DNormal db d) ∧
      (∀ d ∈ res, d ∈ found ∨ Processed db fuel d res)) :
    ∀ (refs : List Nat) (acc res : List Nat),
      (∀ x ∈ acc, DNormal db x) →
      refs.foldlM (fun acc2 ref =>
          match detypedef db fuel ref with
          | none => none
          | some d => findDepsAux db fuel d acc2) acc = some res →
      acc ⊆ res ∧ (∀ x ∈ res, DNormal db x) ∧
      (∀ r ∈ refs, ∃ dd, detypedef db fuel r = some dd ∧ dd ∈ res) ∧
      (∀ d ∈ res, d ∈ acc ∨ Processed db fuel d res) := by
  intro refs
  induction refs with
  | nil =>
    intro acc res hDN h
    rw [List.foldlM_nil] at h
    cases h
    exact ⟨fun x hx => hx, hDN, by simp, fun d hd => Or.inl hd⟩
  | cons ref rest ihr =>
    intro acc res hDN h
    rw [List.foldlM_cons] at h
    cases hdet : detypedef db fuel ref with
    | none => simp only [hdet] at h; exact Option.noConfusion h
    | some dd =>
      simp only [hdet] at h
      cases hsub : findDepsAux db fuel dd acc with
      | none => simp only [hsub] at h; exact Option.noConfusion h
      | some acc2 =>
        simp only [hsub, Option.bind_eq_bind, Option.some_bind] at h
        have hdd : DNormal db dd := detypedef_DNormal db hn hdet
        obtain ⟨hs1, hddmem, hDN2, hproc1⟩ := IH dd acc acc2 hdd hDN hsub
        obtain ⟨hs2, hDN3, hrefs, hproc2⟩ := ihr acc2 res hDN2 h
        refine ⟨fun x hx => hs2 (hs1 hx), hDN3, ?_, ?_⟩
        · intro r hr
          rcases List.mem_cons.mp hr with heq | hmem
          · exact ⟨dd, heq ▸ hdet, hs2 hddmem⟩
          · exact hrefs r hmem
        · intro d hd
          rcases hproc2 d hd with hacc2 | hP
          · rcases hproc1 d hacc2 with hacc | hP1
            · exact Or.inl hacc
            · exact Or.inr (Processed_mono_S db hs2 hP1)
          · exact Or.inr hP

theorem findDepsAux_invariant (db : CodeDB) (hn : NodupIds db) :
    ∀ fuel tid found res, DNormal db tid → (∀ x ∈ found, DNormal db x) →
      findDepsAux db fuel tid found = some res →
      found ⊆ res ∧ tid ∈ res ∧ (∀ d ∈ res, DNormal db d) ∧
      (∀ d ∈ res, d ∈ found ∨ Processed db fuel d res) := by
  intro fuel
  induction fuel with
  | zero =>
    intro tid found res _ _ h
    simp [findDepsAux] at h
  | succ fuel ih =>
    intro tid found res hDtid hDfound h
    simp only [findDepsAux] at h
    by_cases hmem : tid ∈ found
    · rw [if_pos hmem] at h
      cases h
      exact ⟨fun x hx => hx, hmem, hDfound, fun d hd => Or.inl hd⟩
    · rw [if_neg hmem] at h
      cases ht : db.typeById tid with
      | none => simp only [ht] at h; exact Option.noConfusion h
      | some t =>
        simp only [ht] at h
        have hDacc : ∀ x ∈ found ++ [tid], DNormal db x := by
          intro x hx
          rcases List.mem_append.mp hx with hf | he
          · exact hDfound x hf
          · have : x = tid := by simpa using he
            rw [this]
            exact hDtid
        by_cases he : t.cls = "enum"
        · rw [if_pos he] at h
          cases h
          refine ⟨fun x hx => List.mem_append_left _ hx,
            List.mem_append_right _ (by simp), hDacc, ?_⟩
          intro d hd
          rcases List.mem_append.mp hd with hf | htid
          · exact Or.inl hf
          · right
            have hdtid : d = tid := by simpa using htid
            intro t2 ht2 he2
            exfalso
            rw [hdtid, ht] at ht2
            have heqt : t = t2 := by simpa using ht2
            rw [← heqt] at he2
            exact he2 he
        · rw [if_neg he] at h
          obtain ⟨hs1, hDN3, hrefs, hproc⟩ :=
            findDepsRefs_invariant db hn fuel ih t.refs (found ++ [tid]) res
              hDacc h
          have htidmem : tid ∈ res := hs1 (List.mem_append_right _ (by simp))
          refine ⟨fun x hx => hs1 (List.mem_append_left _ hx), htidmem, hDN3, ?_⟩
          intro d hd
          rcases hproc d hd with hda | hP
          · rcases List.mem_append.mp hda with hf | htid
            · exact Or.inl hf
            · right
              have hdtid : d = tid := by simpa using htid
              intro t2 ht2 he2 r hr
              rw [hdtid, ht] at ht2
              have ht2t : t = t2 := by simpa using ht2
              rw [← ht2t] at hr
              rcases hrefs r hr with ⟨dd, hdet, hmem2⟩
              exact ⟨dd, detypedef_mono db (by omega) hdet, hmem2⟩
          · exact Or.inr (Processed_mono_fuel db (by omega) hP)

theorem find_unique_spec (db : CodeDB) (hn : NodupIds db) {fuel tid : Nat}
    {S : List Nat} (h : find_unique_type_dependencies db fuel tid = some S) :
    ∀ d ∈ S, DNormal db d ∧ Processed db fuel d S := by
  unfold find_unique_type_dependencies at h
  cases hd : detypedef db fuel tid with
  | none => rw [hd] at h; exact Option.noConfusion h
  | some d0 =>
    rw [hd] at h
    obtain ⟨_, _, hDN, hproc⟩ :=
      findDepsAux_invariant db hn fuel d0 [] S (detypedef_DNormal db hn hd)
        (by simp) h
    intro d hdS
    refine ⟨hDN d hdS, ?_⟩
    rcases hproc d hdS with hfalse | hP
    · simp at hfalse
    · exact hP

theorem typeDepsList_closures (db : CodeDB) (fuel : Nat) :
    ∀ (commands : List Command) (L : List Nat),
      typeDepsList db fuel commands = some L →
      ∀ d ∈ L, ∃ S, (∃ c ∈ commands,
        find_unique_type_dependencies db fuel c.2.2 = some S) ∧
        d ∈ S ∧ S ⊆ L := by
  intro commands
  induction commands with
  | nil =>
    intro L h d hd
    simp only [typeDepsList, Option.some.injEq] at h
    rw [← h] at hd
    cases hd
  | cons c rest ih =>
    intro L h d hd
    unfold typeDepsList at h
    cases h1 : find_unique_type_dependencies db fuel c.2.2 with
    | none => simp only [h1] at h; exact Option.noConfusion h
    | some S =>
      simp only [h1] at h
      cases h2 : typeDepsList db fuel rest with
      | none => simp only [h2] at h; exact Option.noConfusion h
      | some L2 =>
        simp only [h2, Option.some.injEq] at h
        rw [← h] at hd
        rcases List.mem_append.mp hd with hS | hL2
        · exact ⟨S, ⟨c, List.mem_cons_self c rest, h1⟩, hS,
            fun x hx => h ▸ List.mem_append_left _ hx⟩
        · rcases ih L2 h2 d hL2 with ⟨S2, ⟨c2, hc2, hfind⟩, hdS2, hsub⟩
          exact ⟨S2, ⟨c2, List.mem_cons_of_mem c hc2, hfind⟩, hdS2,
            fun x hx => h ▸ List.mem_append_right _ (hsub hx)⟩

theorem filterOpt_spec (p : α → Option Bool) :
    ∀ (l r : List α), filterOpt p l = some r →
      (∀ x ∈ r, x ∈ l ∧ p x = some true) ∧
      (∀ x ∈ l, p x = some true → x ∈ r) := by
  intro l
  induction l with
  | nil =>
    intro r h
    simp only [filterOpt, Option.some.injEq] at h
    rw [← h]
    exact ⟨by simp, by simp⟩
  | cons a as ih =>
    intro r h
    unfold filterOpt at h
    cases h1 : p a with
    | none => simp only [h1] at h; exact Option.noConfusion h
    | some b =>
      simp only [h1] at h
      cases h2 : filterOpt p as with
      | none => simp only [h2] at h; exact Option.noConfusion h
      | some rest =>
        simp only [h2, Option.some.injEq] at h
        obtain ⟨ihr, ihl⟩ := ih rest h2
        cases b with
        | true =>
          rw [← h]
          constructor
          · intro x hx
            rcases List.mem_cons.mp (by simpa using hx) with heq | hmem
            · rw [heq]
              exact ⟨List.mem_cons_self a as, h1⟩
            · rcases ihr x hmem with ⟨hxs, hpx⟩
              exact ⟨List.mem_cons_of_mem a hxs, hpx⟩
          · intro x hxl hpx
            rcases List.mem_cons.mp hxl with heq | hmem
            · simp [heq]
            · simp [List.mem_cons, ihl x hmem hpx]
        | false =>
          rw [← h]
          constructor
          · intro x hx
            rcases ihr x (by simpa using hx) with ⟨hxs, hpx⟩
            exact ⟨List.mem_cons_of_mem a hxs, hpx⟩
          · intro x hxl hpx
            rcases List.mem_cons.mp hxl with heq | hmem
            · exfalso
              rw [heq] at hpx
              rw [h1] at hpx
              simp at hpx
            · simpa using ihl x hmem hpx

theorem mem_dedupFirstAux [DecidableEq α] :
    ∀ (l seen : List α) (x : α),
      x ∈ dedupFirstAux l seen ↔ x ∈ l ∧ x ∉ seen := by
  intro l
  induction l with
  | nil => intro seen x; simp [dedupFirstAux]
  | cons y ys ih =>
    intro seen x
    unfold dedupFirstAux
    by_cases hy : y ∈ seen
    · rw [if_pos hy, ih]
      constructor
      · rintro ⟨hxy, hxs⟩
        exact ⟨List.mem_cons_of_mem y hxy, hxs⟩
      · rintro ⟨hxy, hxs⟩
        rcases List.mem_cons.mp hxy with heq | hmem
        · exact absurd (heq ▸ hy) hxs
        · exact ⟨hmem, hxs⟩
    · rw [if_neg hy]
      constructor
      · intro hx
        rcases List.mem_cons.mp hx with heq | hmem
        · exact ⟨heq ▸ List.mem_cons_self y ys, heq ▸ hy⟩
        · rcases (ih (y :: seen) x).mp hmem with ⟨hxy, hxs⟩
          refine ⟨List.mem_cons_of_mem y hxy, ?_⟩
          intro hc
          exact hxs (List.mem_cons_of_mem y hc)
      · rintro ⟨hxy, hxs⟩
        rcases List.mem_cons.mp hxy with heq | hmem
        · exact heq ▸ List.mem_cons_self y (dedupFirstAux ys (y :: seen))
        · by_cases hxy2 : x = y
          · exact hxy2 ▸ List.mem_cons_self y (dedupFirstAux ys (y :: seen))
          · refine List.mem_cons_of_mem y ?_
            refine (ih (y :: seen) x).mpr ⟨hmem, ?_⟩
            intro hc
            rcases List.mem_cons.mp hc with h1 | h2
            · exact hxy2 h1
            · exact hxs h2

theorem mem_dedupFirst [DecidableEq α] (l : List α) (x : α) :
    x ∈ dedupFirst l ↔ x ∈ l := by
  unfold dedupFirst
  rw [mem_dedupFirstAux]
  simp

/-- C1 (amended).  After `TypeAnalysisPass.process`, `deps` contains no
typedef ids (its elements are detypedef normal forms — pointer and array
ids can however appear, see the counterexample), and `deps` is closed
under transitive field dependence: any type reachable from a member of
`deps` through detypedef'd refs of non-enum entries belongs to `deps`
whenever it has field references. -/
theorem c1_deps_typedef_free_and_closed (db : CodeDB) (fuel : Nat)
    (commands : List Command) (deps : List Nat) (hn : NodupIds db)
    (h : typeAnalysisDeps db fuel commands = some deps) :
    (∀ d ∈ deps, ∀ t, db.typeById d = some t → t.cls ≠ "typedef") ∧
    (∀ d ∈ deps, ∀ u, Reaches db fuel d u →
      contains_fields db fuel u = some true → u ∈ deps) := by
  unfold typeAnalysisDeps at h
  cases hL : typeDepsList db fuel commands with
  | none => simp only [hL] at h; exact Option.noConfusion h
  | some L =>
    simp only [hL] at h
    cases hF : filterOpt (contains_fields db fuel) L with
    | none => simp only [hF] at h; exact Option.noConfusion h
    | some F =>
      simp only [hF] at h
      simp only [Option.some.injEq] at h
      obtain ⟨hFr, hFl⟩ := filterOpt_spec (contains_fields db fuel) L F hF
      have hdeps_mem : ∀ x, x ∈ deps ↔ x ∈ F := by
        intro x
        rw [← h, mem_dedupFirst]
      have hclosure : ∀ x, x ∈ L →
          ∃ S, (∃ c ∈ commands,
            find_unique_type_dependencies db fuel c.2.2 = some S) ∧
            x ∈ S ∧ S ⊆ L :=
        typeDepsList_closures db fuel commands L hL
      constructor
      · intro d hd t ht hcls
        rcases hFr d ((hdeps_mem d).mp hd) with ⟨hdL, _⟩
        rcases hclosure d hdL with ⟨S, ⟨c, _, hfind⟩, hdS, _⟩
        rcases (find_unique_spec db hn hfind d hdS).1 with ⟨t2, ht2, hcls2⟩
        rw [ht] at ht2
        have heqt : t = t2 := by simpa using ht2
        rw [← heqt] at hcls2
        exact hcls2 hcls
      · intro d hd u hreach hcf
        have hkey : ∀ x u2, Reaches db fuel x u2 →
            x ∈ L → contains_fields db fuel u2 = some true → u2 ∈ deps := by
          intro x u2 hr
          induction hr with
          | refl d2 =>
            intro hxL hcf2
            exact (hdeps_mem d2).mpr (hFl d2 hxL hcf2)
          | head hstep hr2 ih =>
            rename_i d2 x2 u3
            intro hxL hcf2
            rcases hclosure d2 hxL with ⟨S, ⟨c, _, hfind⟩, hdS, hSL⟩
            have hproc := (find_unique_spec db hn hfind d2 hdS).2
            rcases hstep with ⟨t, ht, he, r, hr, hdet⟩
            rcases hproc t ht he r hr with ⟨dd, hdet2, hddS⟩
            have hddx : dd = x2 := by
              rw [hdet] at hdet2
              have : x2 = dd := by simpa using hdet2
              rw [this]
            exact ih (hSL (hddx ▸ hddS)) hcf2
        rcases hFr d ((hdeps_mem d).mp hd) with ⟨hdL, _⟩
        exact hkey d u hreach hdL hcf

/-- C1 counterexample: for `struct node { struct node *next; int x; }` as
command root, `deps = {node, node*}` — the pointer type id 1 is in `deps`
(its detypedef is itself and it has a ref), refuting "non-pointer". -/
theorem c1_counterexample :
    typeAnalysisDeps nodeDb 10 [("NODE_CMD", 1, 0)] = some [0, 1] ∧
    nodeDb.typeById 1 =
      some (TypeEntry.mk 1 "node *" "pointer" 64 [0] [] [] false) :=
  ⟨rfl, rfl⟩

theorem c1_witness :
    (∀ d ∈ [0, 1], ∀ t, nodeDb.typeById d = some t → t.cls ≠ "typedef") ∧
    (∀ d ∈ [0, 1], ∀ u, Reaches nodeDb 10 d u →
      contains_fields nodeDb 10 u = some true → u ∈ [0, 1]) :=
  c1_deps_typedef_free_and_closed nodeDb 10 [("NODE_CMD", 1, 0)] [0, 1]
    (by unfold NodupIds; decide) rfl

end Syzdescriptor
